import Mathlib

/-!
Verification of the process-monitoring tool in
`src/Banking_Management_System_Linux.c`.

The C program takes a snapshot of the OS process table (`/proc`), builds an
in-memory tree of the processes transitively parented by a supplied root pid,
and runs relationship queries or signal-dispatch actions over that tree.

Shallow embedding conventions:

* A snapshot of the process namespace is a finite list of records
  (`ProcRecord`), one per `/proc/<pid>/status` file, in directory-enumeration
  order.  `fetch_process_data` looks a pid up in the snapshot; the directory
  scan in `discover_children` enumerates the snapshot ids in order.
* C nodes (`ProcessNode`) carry mutable `parent` / `children` pointers.
  Pids are unique inside one collection (insertion is guarded by
  `find_node_by_pid`), so pointers are embedded as pid-valued references
  resolved through `find_node_by_pid`; `ProcessCollection.root` stores the
  root node's pid (the C field stores the node pointer, whose `data.id` never
  mutates).
* The unbounded C recursions (`discover_children` re-entering itself, the
  `while (parent)` pointer walk) are embedded with an explicit fuel
  parameter; the top-level entry points pass a fuel that is proved (below)
  to make the result fuel-independent.
* `kill(2)` is fire-and-forget in the program; actions are embedded as pure
  functions that additionally return the ordered log of attempted signals.
* `printf` output is embedded as an ordered list of `OutLine` values.
-/

/-- One process record as read from `/proc/<pid>/status`:
pid, `PPid:` value, and whether `State:` contains `Z`. -/
structure ProcRecord where
  id : Int
  parent_id : Int
  defunct : Bool
deriving Repr, DecidableEq

/-- Embedding of `ProcessNode`: the `ProcessMetadata` fields plus the
`parent` back pointer and the `children` pointer array, both as pids. -/
structure PNode where
  id : Int
  parent_id : Int
  defunct : Bool
  parent : Option Int
  children : List Int
deriving Repr, DecidableEq

/-- Embedding of `ProcessCollection`: the `nodes` array in insertion order
and the designated root (as its pid; `NULL` is `none`). -/
structure Collection where
  nodes : List PNode
  root : Option Int
deriving Repr, DecidableEq

/-- `init_collection`: empty collection, no root. -/
def init_collection : Collection := { nodes := [], root := none }

/-- `create_node`: fresh node with no parent and no children. -/
def create_node (pid ppid : Int) (zombie : Bool) : PNode :=
  { id := pid, parent_id := ppid, defunct := zombie, parent := none, children := [] }

/-- Linear search of a node list for the first node with the given pid
(the loop body of `find_node_by_pid`). -/
def findInList : List PNode → Int → Option PNode
  | [], _ => none
  | n :: rest, pid => if n.id = pid then some n else findInList rest pid

/-- `find_node_by_pid`: first node in the collection with the given pid. -/
def find_node_by_pid (col : Collection) (pid : Int) : Option PNode :=
  findInList col.nodes pid

/-- `add_to_collection`: append a node to the `nodes` array. -/
def add_to_collection (col : Collection) (n : PNode) : Collection :=
  { col with nodes := col.nodes ++ [n] }

/-- The per-node effect of `add_child(parent, child)`: the node with the
parent's pid gains `childId` at the end of its `children` array, the node
with the child's pid gets its `parent` pointer set. -/
def updChild (parentId childId : Int) (n : PNode) : PNode :=
  let n1 := if n.id = parentId then { n with children := n.children ++ [childId] } else n
  if n1.id = childId then { n1 with parent := some parentId } else n1

/-- `add_child(parent, child)`: append the child to the parent's `children`
array and set the child's `parent` pointer.  The C function receives node
pointers; every call site obtains them via `find_node_by_pid`, and pids are
unique in the collection, so the mutation is embedded as an update of the
nodes carrying those pids. -/
def add_child (col : Collection) (parentId childId : Int) : Collection :=
  { col with nodes := col.nodes.map (updChild parentId childId) }

/-- `fetch_process_data`: look a pid up in the snapshot (success iff
`/proc/<pid>/status` exists, i.e. the pid occurs in the snapshot). -/
def fetch_process_data : List ProcRecord → Int → Option ProcRecord
  | [], _ => none
  | r :: rest, pid => if r.id = pid then some r else fetch_process_data rest pid

/-- The body of `discover_children`: one scan of the `/proc` entries
(`entries` are the snapshot pids in directory order).  For each entry whose
record's `parent_id` matches and that is not yet in the collection: create
the node, append it, link it under the parent (which `discover_children`
finds in the collection), and recurse into it via `recurse`.  The recursive
re-entry of `discover_children` is abstracted by the `recurse` argument so
that the fuel-indexed approximations below are structurally recursive. -/
def discoverLoop (snap : List ProcRecord) (recurse : Collection → Int → Collection) :
    List Int → Collection → Int → Collection
  | [], col, _ => col
  | pid :: rest, col, parent_pid =>
    if pid > 0 then
      match fetch_process_data snap pid with
      | some r =>
        if r.parent_id = parent_pid then
          if (find_node_by_pid col pid).isSome then
            discoverLoop snap recurse rest col parent_pid
          else
            let node := create_node pid r.parent_id r.defunct
            let col1 := add_to_collection col node
            let col2 := if (find_node_by_pid col1 parent_pid).isSome then
                          add_child col1 parent_pid pid
                        else col1
            let col3 := recurse col2 pid
            discoverLoop snap recurse rest col3 parent_pid
        else discoverLoop snap recurse rest col parent_pid
      | none => discoverLoop snap recurse rest col parent_pid
    else discoverLoop snap recurse rest col parent_pid

/-- Fuel-indexed approximation of the recursive `discover_children`:
each unit of fuel allows one more level of recursive descent. -/
def discoverRec (snap : List ProcRecord) : Nat → Collection → Int → Collection
  | 0, col, _ => col
  | fuel + 1, col, parent_pid =>
    discoverLoop snap (discoverRec snap fuel) (snap.map (fun r => r.id)) col parent_pid

/-- `discover_children`: the C function recurses without bound; a descent
only happens right after a pid missing from the collection is inserted, so
`snap.length + 1` levels always suffice (proved below as
`discoverRec_stabilizes`). -/
def discover_children (snap : List ProcRecord) (col : Collection) (parent_pid : Int) : Collection :=
  discoverRec snap (snap.length + 1) col parent_pid

/-- The reconciliation loop at the end of `build_process_hierarchy`: for
every node other than the root whose `parent_id` resolves in the collection
and whose `parent` pointer is still `NULL`, link it under that parent. -/
def reconcile_pass (root_pid : Int) (col : Collection) : Collection :=
  (List.range col.nodes.length).foldl (fun c i =>
    match c.nodes[i]? with
    | none => c
    | some node =>
      if node.id = root_pid then c
      else
        match find_node_by_pid c node.parent_id with
        | some _ => if node.parent = none then add_child c node.parent_id node.id else c
        | none => c) col

/-- The discovery phase of `build_process_hierarchy` (everything before the
reconciliation loop): fetch the root record, insert it as the root, and
run `discover_children` from it; on fetch failure the collection stays
empty. -/
def build_phase1 (snap : List ProcRecord) (root_pid : Int) : Collection :=
  match fetch_process_data snap root_pid with
  | some r =>
    let root := create_node root_pid r.parent_id r.defunct
    let col1 := add_to_collection init_collection root
    let col2 := { col1 with root := some root_pid }
    discover_children snap col2 root_pid
  | none => init_collection

/-- `build_process_hierarchy`: discovery phase followed by the
reconciliation loop. -/
def build_process_hierarchy (snap : List ProcRecord) (root_pid : Int) : Collection :=
  reconcile_pass root_pid (build_phase1 snap root_pid)

/-! ## Query functions -/

/-- `CommandResult`: the ordered ids written into the result buffer and the
message shown when no id was written.  `init_result` mallocs a fixed buffer
of 1000 ints; that capacity is recorded separately as `resultCapacity`. -/
structure CommandResult where
  result_ids : List Int
  empty_message : Option String
deriving Repr, DecidableEq

/-- The buffer capacity allocated by `init_result`
(`malloc(sizeof(int) * 1000)`). -/
def resultCapacity : Nat := 1000

/-- `init_result`: empty result with the designated empty message. -/
def init_result (msg : Option String) : CommandResult :=
  { result_ids := [], empty_message := msg }

/-- Resolve a node's `children` pointer array to the child nodes.  In C the
array stores pointers, so dereferencing always succeeds; in the embedding
each stored pid is resolved through `find_node_by_pid` (every stored pid is
present in the collection — proved below for built trees). -/
def childNodes (col : Collection) (n : PNode) : List PNode :=
  n.children.filterMap (fun c => find_node_by_pid col c)

/-- `count_zombies`: number of nodes in the whole collection whose
defunct flag is set. -/
def count_zombies (col : Collection) : Nat :=
  (col.nodes.filter (fun n => n.defunct)).length

/-- `get_direct_descendants`: the target's immediate children, in order. -/
def get_direct_descendants (col : Collection) (pid : Int) : CommandResult :=
  let r := init_result (some "No direct descendants")
  match find_node_by_pid col pid with
  | some node => { r with result_ids := (childNodes col node).map (fun c => c.id) }
  | none => r

/-- `get_grandchildren`: children of the target's children. -/
def get_grandchildren (col : Collection) (pid : Int) : CommandResult :=
  let r := init_result (some "No grandchildren")
  match find_node_by_pid col pid with
  | some node =>
    { r with result_ids :=
        (childNodes col node).flatMap (fun c => (childNodes col c).map (fun g => g.id)) }
  | none => r

/-- `collect_indirect_descendants`: for each child of `node`, append every
grandchild and recurse into that grandchild.  (Note the recursion is on the
grandchild, mirroring the C code exactly.)  The C recursion is bounded by
the tree depth; `fuel` makes it total, and the callers pass the collection
size, which the acyclicity results below show is always enough. -/
def collect_indirect_descendants (col : Collection) : Nat → PNode → List Int
  | 0, _ => []
  | fuel + 1, node =>
    (childNodes col node).flatMap (fun child =>
      (childNodes col child).flatMap (fun gc =>
        gc.id :: collect_indirect_descendants col fuel gc))

/-- `get_indirect_descendants`. -/
def get_indirect_descendants (col : Collection) (pid : Int) : CommandResult :=
  let r := init_result (some "No non-direct descendants")
  match find_node_by_pid col pid with
  | some node =>
    { r with result_ids := collect_indirect_descendants col col.nodes.length node }
  | none => r

/-- `get_siblings`: the other children of the target's parent. -/
def get_siblings (col : Collection) (pid : Int) : CommandResult :=
  let r := init_result (some "No sibling/s")
  match find_node_by_pid col pid with
  | some node =>
    match node.parent with
    | some pp =>
      match find_node_by_pid col pp with
      | some pnode =>
        { r with result_ids :=
            ((childNodes col pnode).filter (fun s => decide (s.id ≠ pid))).map (fun s => s.id) }
      | none => r
    | none => r
  | none => r

/-- `get_defunct_siblings`: siblings filtered to the defunct ones. -/
def get_defunct_siblings (col : Collection) (pid : Int) : CommandResult :=
  let r := init_result (some "No defunct sibling/s")
  match find_node_by_pid col pid with
  | some node =>
    match node.parent with
    | some pp =>
      match find_node_by_pid col pp with
      | some pnode =>
        { r with result_ids :=
            ((childNodes col pnode).filter
              (fun s => decide (s.id ≠ pid) && s.defunct)).map (fun s => s.id) }
      | none => r
    | none => r
  | none => r

/-- `collect_defunct_descendants`: depth-first walk appending every defunct
node of the subtree (the start node itself excluded).  Fuel as in
`collect_indirect_descendants`. -/
def collect_defunct_descendants (col : Collection) : Nat → PNode → List Int
  | 0, _ => []
  | fuel + 1, node =>
    (childNodes col node).flatMap (fun child =>
      (if child.defunct then [child.id] else []) ++
        collect_defunct_descendants col fuel child)

/-- `get_defunct_descendants`. -/
def get_defunct_descendants (col : Collection) (pid : Int) : CommandResult :=
  let r := init_result (some "No descendant zombie process/es")
  match find_node_by_pid col pid with
  | some node =>
    { r with result_ids := collect_defunct_descendants col col.nodes.length node }
  | none => r

/-! ## Action functions

`kill(2)` never reports back to the program, so actions are embedded as
pure functions returning the `CommandResult` together with the ordered log
of attempted `(pid, signal)` deliveries. -/

/-- The three signals the program sends (`SIGKILL`, `SIGSTOP`, `SIGCONT`). -/
inductive Sig where
  | kill
  | stop
  | cont
deriving Repr, DecidableEq

/-- The `while (parent)` ancestor walk of `signal_all_descendants`: starting
from a node's `parent` pointer, walk up until the target pid is met (true)
or the chain ends at `NULL` (false).  The C walk follows raw pointers; the
embedding resolves each pid and bounds the walk by fuel (callers pass the
collection size, which the acyclicity results below show is enough). -/
def ancestorHit (col : Collection) : Nat → Option Int → Int → Bool
  | _, none, _ => false
  | 0, some _, _ => false
  | fuel + 1, some p, pid =>
    match find_node_by_pid col p with
    | none => false
    | some pn => if pn.id = pid then true else ancestorHit col fuel pn.parent pid

/-- `signal_all_descendants`: if the target is in the collection, scan every
node of the collection in order; each node whose ancestor walk meets the
target pid is signaled and recorded. -/
def signal_all_descendants (col : Collection) (pid : Int) (sig : Sig) :
    CommandResult × List (Int × Sig) :=
  let r0 := init_result none
  match find_node_by_pid col pid with
  | none => (r0, [])
  | some _ =>
    col.nodes.foldl (fun acc current =>
      if ancestorHit col col.nodes.length current.parent pid then
        ({ acc.1 with result_ids := acc.1.result_ids ++ [current.id] },
         acc.2 ++ [(current.id, sig)])
      else acc) (r0, [])

/-- `kill_zombie_parents`: compute the defunct descendants of the target;
for each zombie (looked up again by pid), signal and record its
`parent_id` when that parent id exceeds 1. -/
def kill_zombie_parents (col : Collection) (pid : Int) :
    CommandResult × List (Int × Sig) :=
  let zombies := get_defunct_descendants col pid
  zombies.result_ids.foldl (fun acc zid =>
    match find_node_by_pid col zid with
    | some z =>
      if z.parent_id > 1 then
        ({ acc.1 with result_ids := acc.1.result_ids ++ [z.parent_id] },
         acc.2 ++ [(z.parent_id, Sig.kill)])
      else acc
    | none => acc) (init_result none, [])

/-! ## Command handlers, registry, output and `main` -/

/-- One line of program output. -/
inductive OutLine where
  /-- `printf("%d\n", n)` — a result id or a count. -/
  | num (n : Int)
  /-- a fixed message string (empty messages, `Defunct` / `Not defunct`). -/
  | msg (s : String)
  /-- `printf("%d %d\n", a, b)` — the no-flag report of id and parent id. -/
  | pair (a b : Int)
  /-- `"The process <tp> does not belong to the tree rooted at <rp>"`. -/
  | notBelong (tp rp : Int)
  /-- `"Does not belong to the process tree"` (three-argument form). -/
  | notBelongPlain
  /-- `"Invalid option: <flag>"`. -/
  | invalid (s : String)
deriving Repr, DecidableEq

/-- `display_results`: the empty message when nothing was collected and a
message is set, otherwise one line per collected id. -/
def display_results (r : CommandResult) : List OutLine :=
  if r.result_ids.length = 0 ∧ r.empty_message.isSome then
    [OutLine.msg (r.empty_message.getD "")]
  else
    r.result_ids.map (fun i => OutLine.num i)

/-- The closed set of operations in `command_registry`, one constructor per
handler function. -/
inductive Cmd where
  | countDefunct
  | nonDirectDescendants
  | immediateDescendants
  | siblings
  | defunctSiblings
  | defunctDescendants
  | grandchildren
  | processStatus
  | killZombieParents
  | killDescendants
  | stopDescendants
  | continueDescendants
  | killRoot
deriving Repr, DecidableEq

/-- `command_registry`: flag strings in table order. -/
def command_registry : List (String × Cmd) :=
  [("-dc", Cmd.countDefunct),
   ("-ds", Cmd.nonDirectDescendants),
   ("-id", Cmd.immediateDescendants),
   ("-lg", Cmd.siblings),
   ("-lz", Cmd.defunctSiblings),
   ("-df", Cmd.defunctDescendants),
   ("-gc", Cmd.grandchildren),
   ("-do", Cmd.processStatus),
   ("--pz", Cmd.killZombieParents),
   ("-sk", Cmd.killDescendants),
   ("-st", Cmd.stopDescendants),
   ("-dt", Cmd.continueDescendants),
   ("-rp", Cmd.killRoot)]

/-- `find_command_handler`: first registry entry whose flag matches. -/
def find_command_handler (option : String) : Option Cmd :=
  (command_registry.find? (fun e => e.1 == option)).map (fun e => e.2)

/-- `handle_kill_root`: signal the root node's pid if the collection has a
root; the `pid` argument is ignored (as in C). -/
def handle_kill_root (col : Collection) (pid : Int) :
    CommandResult × List (Int × Sig) :=
  let r := init_result none
  match col.root with
  | some rid => (r, [(rid, Sig.kill)])
  | none => (r, [])

/-- Run one handler from `command_registry`: returns the `CommandResult`
passed to `display_results`, the lines the handler itself printed before
returning, and the signal log. -/
def runHandler (cmd : Cmd) (col : Collection) (pid : Int) :
    CommandResult × List OutLine × List (Int × Sig) :=
  match cmd with
  | Cmd.countDefunct =>
    (init_result none, [OutLine.num (count_zombies col : Int)], [])
  | Cmd.nonDirectDescendants => (get_indirect_descendants col pid, [], [])
  | Cmd.immediateDescendants => (get_direct_descendants col pid, [], [])
  | Cmd.siblings => (get_siblings col pid, [], [])
  | Cmd.defunctSiblings => (get_defunct_siblings col pid, [], [])
  | Cmd.defunctDescendants => (get_defunct_descendants col pid, [], [])
  | Cmd.grandchildren => (get_grandchildren col pid, [], [])
  | Cmd.processStatus =>
    (init_result none,
     match find_node_by_pid col pid with
     | some node => [OutLine.msg (if node.defunct then "Defunct" else "Not defunct")]
     | none => [],
     [])
  | Cmd.killZombieParents =>
    let rk := kill_zombie_parents col pid
    (rk.1, [], rk.2)
  | Cmd.killDescendants =>
    let rk := signal_all_descendants col pid Sig.kill
    (rk.1, [], rk.2)
  | Cmd.stopDescendants =>
    let rk := signal_all_descendants col pid Sig.stop
    (rk.1, [], rk.2)
  | Cmd.continueDescendants =>
    let rk := signal_all_descendants col pid Sig.cont
    (rk.1, [], rk.2)
  | Cmd.killRoot =>
    let rk := handle_kill_root col pid
    (rk.1, [], rk.2)

/-- The body of `main` after argument parsing: build the hierarchy, then
either report the target's id and parent id (no flag) or dispatch on the
flag.  `-rp` is special-cased before the presence check and acts on the
root pid; every other recognized flag first verifies the target is in the
tree.  Returns the printed lines and the signal log. -/
def runMain (snap : List ProcRecord) (root_pid target_pid : Int)
    (flag : Option String) : List OutLine × List (Int × Sig) :=
  let processes := build_process_hierarchy snap root_pid
  match flag with
  | none =>
    match find_node_by_pid processes target_pid with
    | some node => ([OutLine.pair node.id node.parent_id], [])
    | none => ([OutLine.notBelongPlain], [])
  | some option =>
    if option = "-rp" then
      let rk := handle_kill_root processes root_pid
      (display_results rk.1, rk.2)
    else
      match find_command_handler option with
      | some cmd =>
        if (find_node_by_pid processes target_pid).isSome then
          let hr := runHandler cmd processes target_pid
          (hr.2.1 ++ display_results hr.1, hr.2.2)
        else ([OutLine.notBelong target_pid root_pid], [])
      | none => ([OutLine.invalid option], [])

/-! ## Auxiliary definitions used by the verification -/

/-- The pids stored in the collection, in insertion order. -/
def colIds (col : Collection) : List Int := col.nodes.map (fun n => n.id)

/-- Number of snapshot pids not yet present in the collection; the measure
that bounds the recursion depth of `discover_children`. -/
def missingCount (snap : List ProcRecord) (col : Collection) : Nat :=
  ((snap.map (fun r => r.id)).filter (fun i => !(find_node_by_pid col i).isSome)).length

/-- One upward step along a `parent` pointer. -/
def parentStep (col : Collection) (n : PNode) : Option PNode :=
  match n.parent with
  | none => none
  | some p => find_node_by_pid col p

/-- `k` upward steps along `parent` pointers. -/
def nthAnc (col : Collection) : Nat → PNode → Option PNode
  | 0, n => some n
  | k + 1, n =>
    match parentStep col n with
    | none => none
    | some m => nthAnc col k m

/-- The spec's notion of proper descendant: walking the parent chain upward
from `n` meets a node with the given pid after at least one step. -/
def ReachesUp (col : Collection) (n : PNode) (pid : Int) : Prop :=
  ∃ k m, 1 ≤ k ∧ nthAnc col k n = some m ∧ m.id = pid

/-- Depth-first list of all nodes strictly below `node` in the same order
as the depth-first query traversals. -/
def collectAll (col : Collection) : Nat → PNode → List PNode
  | 0, _ => []
  | fuel + 1, node =>
    (childNodes col node).flatMap (fun c => c :: collectAll col fuel c)

/-- Structural invariants of every collection produced by
`build_process_hierarchy` (proved below): unique pids; parent pointers
point to earlier-inserted nodes and agree with `parent_id`; a pid occurs in
a node's `children` array exactly once when that node is its parent and
never otherwise; the root, when set, is the first node, carries the
requested pid and has no parent; every parentless node is the root;
a rootless collection is empty. -/
structure TreeInv (col : Collection) (root_pid : Int) : Prop where
  nodup : (colIds col).Nodup
  parIdx : ∀ j, ∀ hj : j < col.nodes.length, ∀ p,
    (col.nodes.get ⟨j, hj⟩).parent = some p →
    p ∈ (col.nodes.take j).map (fun n => n.id)
  parEq : ∀ n ∈ col.nodes, ∀ p, n.parent = some p → p = n.parent_id
  childMem : ∀ n ∈ col.nodes, ∀ c ∈ n.children, ∃ m, m ∈ col.nodes ∧ m.id = c
  childCount : ∀ n ∈ col.nodes, ∀ m ∈ col.nodes,
    n.children.count m.id = if m.parent = some n.id then 1 else 0
  rootEq : ∀ r, col.root = some r → r = root_pid
  rootFirst : col.root = some root_pid → ∃ h0 : 0 < col.nodes.length,
    (col.nodes.get ⟨0, h0⟩).id = root_pid ∧ (col.nodes.get ⟨0, h0⟩).parent = none
  allLinked : ∀ n ∈ col.nodes, n.parent = none → n.id = root_pid
  rootNoneEmpty : col.root = none → col.nodes = []

/-- Concrete snapshot: a four-process chain 1 ← 2 ← 3 ← 4 (each the parent
of the next), no zombies. -/
def chain4 : List ProcRecord :=
  [⟨1, 0, false⟩, ⟨2, 1, false⟩, ⟨3, 2, false⟩, ⟨4, 3, false⟩]

/-- Concrete snapshot from the spec's example scenario: root 1, children 2
(defunct) and 3, child 4 (defunct) of 2. -/
def specExample : List ProcRecord :=
  [⟨1, 0, false⟩, ⟨2, 1, true⟩, ⟨3, 1, false⟩, ⟨4, 2, true⟩]

/-- A star-shaped child node: pid `i + 1`, parented by pid 0. -/
def starChild (i : Nat) : PNode :=
  { id := Int.ofNat i + 1, parent_id := 0, defunct := false,
    parent := some 0, children := [] }

/-- A star-shaped root: pid 0 with children `1 … n`. -/
def starRoot (n : Nat) : PNode :=
  { id := 0, parent_id := -1, defunct := false, parent := none,
    children := (List.range n).map (fun i => Int.ofNat i + 1) }

/-- A well-formed star tree with `n` direct children of the root. -/
def starCol (n : Nat) : Collection :=
  { nodes := starRoot n :: (List.range n).map starChild, root := some 0 }

/-! ## Basic lemmas about lookups and updates -/

theorem findInList_eq_some {l : List PNode} {pid : Int} {n : PNode}
    (h : findInList l pid = some n) : n ∈ l ∧ n.id = pid := by
  induction l with
  | nil => simp [findInList] at h
  | cons a rest ih =>
    rw [findInList] at h
    by_cases ha : a.id = pid
    · rw [if_pos ha] at h
      cases h
      exact ⟨List.mem_cons_self n rest, ha⟩
    · rw [if_neg ha] at h
      rcases ih h with ⟨hm, hid⟩
      exact ⟨List.mem_cons_of_mem _ hm, hid⟩

theorem findInList_isSome {l : List PNode} {pid : Int} :
    (findInList l pid).isSome = true ↔ ∃ n, n ∈ l ∧ n.id = pid := by
  induction l with
  | nil => simp [findInList]
  | cons a rest ih =>
    rw [findInList]
    by_cases ha : a.id = pid
    · rw [if_pos ha]
      simp only [Option.isSome_some, true_iff]
      exact ⟨a, List.mem_cons_self a rest, ha⟩
    · rw [if_neg ha, ih]
      constructor
      · rintro ⟨n, hn, hid⟩
        exact ⟨n, List.mem_cons_of_mem _ hn, hid⟩
      · rintro ⟨n, hn, hid⟩
        rcases List.mem_cons.1 hn with rfl | hn
        · exact absurd hid ha
        · exact ⟨n, hn, hid⟩

theorem findInList_eq_none {l : List PNode} {pid : Int} :
    findInList l pid = none ↔ ∀ n ∈ l, n.id ≠ pid := by
  constructor
  · intro h n hn hid
    have : (findInList l pid).isSome = true := findInList_isSome.2 ⟨n, hn, hid⟩
    rw [h] at this
    simp at this
  · intro h
    cases hf : findInList l pid with
    | none => rfl
    | some n =>
      rcases findInList_eq_some hf with ⟨hn, hid⟩
      exact absurd hid (h n hn)

theorem findInList_append {l1 l2 : List PNode} {pid : Int} :
    findInList (l1 ++ l2) pid =
      match findInList l1 pid with
      | some n => some n
      | none => findInList l2 pid := by
  induction l1 with
  | nil => simp [findInList]
  | cons a rest ih =>
    rw [List.cons_append, findInList, findInList]
    split
    · rfl
    · exact ih

theorem findInList_map {f : PNode → PNode} (hf : ∀ n, (f n).id = n.id)
    (l : List PNode) (pid : Int) :
    findInList (l.map f) pid = (findInList l pid).map f := by
  induction l with
  | nil => simp [findInList]
  | cons a rest ih =>
    rw [List.map_cons, findInList, findInList, hf a]
    split
    · rfl
    · exact ih

theorem updChild_eq (p c : Int) (n : PNode) :
    updChild p c n =
      { n with
        children := if n.id = p then n.children ++ [c] else n.children,
        parent := if n.id = c then some p else n.parent } := by
  by_cases h1 : n.id = p
  · by_cases h2 : n.id = c
    · have hpc : p = c := h1.symm.trans h2
      simp [updChild, h1, h2, hpc]
    · have hpc : ¬(p = c) := fun hh => h2 (h1.trans hh)
      simp [updChild, h1, h2, hpc]
  · by_cases h2 : n.id = c
    · have hcp : ¬(c = p) := fun hh => h1 (h2.trans hh)
      simp [updChild, h1, h2, hcp]
    · simp [updChild, h1, h2]

theorem updChild_id (p c : Int) (n : PNode) : (updChild p c n).id = n.id := by
  rw [updChild_eq]

theorem updChild_parent_id (p c : Int) (n : PNode) :
    (updChild p c n).parent_id = n.parent_id := by
  rw [updChild_eq]

theorem updChild_defunct (p c : Int) (n : PNode) :
    (updChild p c n).defunct = n.defunct := by
  rw [updChild_eq]

theorem updChild_parent (p c : Int) (n : PNode) :
    (updChild p c n).parent = if n.id = c then some p else n.parent := by
  rw [updChild_eq]

theorem updChild_children (p c : Int) (n : PNode) :
    (updChild p c n).children = if n.id = p then n.children ++ [c] else n.children := by
  rw [updChild_eq]

theorem add_child_root (col : Collection) (p c : Int) :
    (add_child col p c).root = col.root := rfl

theorem add_child_nodes (col : Collection) (p c : Int) :
    (add_child col p c).nodes = col.nodes.map (updChild p c) := rfl

theorem colIds_add_child (col : Collection) (p c : Int) :
    colIds (add_child col p c) = colIds col := by
  simp [colIds, add_child, List.map_map, Function.comp, updChild_id]

theorem find_add_child (col : Collection) (p c x : Int) :
    find_node_by_pid (add_child col p c) x =
      (find_node_by_pid col x).map (updChild p c) :=
  findInList_map (updChild_id p c) col.nodes x

theorem add_to_collection_root (col : Collection) (n : PNode) :
    (add_to_collection col n).root = col.root := rfl

theorem colIds_add_to_collection (col : Collection) (n : PNode) :
    colIds (add_to_collection col n) = colIds col ++ [n.id] := by
  simp [colIds, add_to_collection]

theorem find_add_to_collection (col : Collection) (n : PNode) (x : Int) :
    find_node_by_pid (add_to_collection col n) x =
      match find_node_by_pid col x with
      | some m => some m
      | none => if n.id = x then some n else none := by
  show findInList (col.nodes ++ [n]) x = _
  rw [findInList_append]
  rfl

theorem foldl_preserve {α : Type} {β : Type} {P : α → Prop} {f : α → β → α} {l : List β}
    {a : α} (h : ∀ x b, P x → P (f x b)) (ha : P a) : P (l.foldl f a) := by
  induction l generalizing a with
  | nil => exact ha
  | cons b rest ih => exact ih (h a b ha)

theorem find_isSome_add_to_collection {col : Collection} {n : PNode} {x : Int}
    (h : (find_node_by_pid col x).isSome = true) :
    (find_node_by_pid (add_to_collection col n) x).isSome = true := by
  rcases Option.isSome_iff_exists.1 h with ⟨m, hm⟩
  rw [find_add_to_collection, hm]
  rfl

theorem find_isSome_add_child {col : Collection} {p c x : Int}
    (h : (find_node_by_pid col x).isSome = true) :
    (find_node_by_pid (add_child col p c) x).isSome = true := by
  rcases Option.isSome_iff_exists.1 h with ⟨m, hm⟩
  rw [find_add_child, hm]
  rfl

theorem find_isSome_ite {b : Prop} [Decidable b] {c1 c2 : Collection} {x : Int}
    (h1 : (find_node_by_pid c1 x).isSome = true)
    (h2 : (find_node_by_pid c2 x).isSome = true) :
    (find_node_by_pid (if b then c1 else c2) x).isSome = true := by
  by_cases hb : b
  · rw [if_pos hb]; exact h1
  · rw [if_neg hb]; exact h2

theorem discoverLoop_mono {snap : List ProcRecord} {recurse : Collection → Int → Collection}
    (hrec : ∀ c q x, (find_node_by_pid c x).isSome = true →
      (find_node_by_pid (recurse c q) x).isSome = true) :
    ∀ entries col parent_pid x, (find_node_by_pid col x).isSome = true →
      (find_node_by_pid (discoverLoop snap recurse entries col parent_pid) x).isSome = true := by
  intro entries
  induction entries with
  | nil =>
    intro col p x h
    simpa [discoverLoop] using h
  | cons pid rest ih =>
    intro col p x h
    rw [discoverLoop]
    split
    · split
      · split
        · split
          · exact ih col p x h
          · exact ih _ p x (hrec _ _ _
              (find_isSome_ite (find_isSome_add_child (find_isSome_add_to_collection h))
                (find_isSome_add_to_collection h)))
        · exact ih col p x h
      · exact ih col p x h
    · exact ih col p x h

theorem discoverRec_mono {snap : List ProcRecord} :
    ∀ fuel col parent_pid x, (find_node_by_pid col x).isSome = true →
      (find_node_by_pid (discoverRec snap fuel col parent_pid) x).isSome = true := by
  intro fuel
  induction fuel with
  | zero =>
    intro col p x h
    simpa [discoverRec] using h
  | succ fuel ih =>
    intro col p x h
    rw [discoverRec]
    exact discoverLoop_mono (fun c q y hy => ih c q y hy) _ col p x h

theorem root_ite {b : Prop} [Decidable b] {c1 c2 : Collection} {r : Option Int}
    (h1 : c1.root = r) (h2 : c2.root = r) : (if b then c1 else c2).root = r := by
  by_cases hb : b
  · rw [if_pos hb]; exact h1
  · rw [if_neg hb]; exact h2

theorem discoverLoop_root {snap : List ProcRecord} {recurse : Collection → Int → Collection}
    (hrec : ∀ c q, (recurse c q).root = c.root) :
    ∀ entries col parent_pid,
      (discoverLoop snap recurse entries col parent_pid).root = col.root := by
  intro entries
  induction entries with
  | nil =>
    intro col p
    simp [discoverLoop]
  | cons pid rest ih =>
    intro col p
    rw [discoverLoop]
    split
    · split
      · split
        · split
          · exact ih col p
          · rw [ih _ p, hrec]
            exact root_ite (by rw [add_child_root, add_to_collection_root])
              (add_to_collection_root col _)
        · exact ih col p
      · exact ih col p
    · exact ih col p

theorem discoverRec_root {snap : List ProcRecord} :
    ∀ fuel col parent_pid, (discoverRec snap fuel col parent_pid).root = col.root := by
  intro fuel
  induction fuel with
  | zero =>
    intro col p
    simp [discoverRec]
  | succ fuel ih =>
    intro col p
    rw [discoverRec]
    exact discoverLoop_root (fun c q => ih c q) _ col p

/-! ## Termination of discovery: the fuel-indexed approximations stabilize -/

theorem fetch_eq_some {snap : List ProcRecord} {pid : Int} {r : ProcRecord}
    (h : fetch_process_data snap pid = some r) : r ∈ snap ∧ r.id = pid := by
  induction snap with
  | nil => simp [fetch_process_data] at h
  | cons a rest ih =>
    rw [fetch_process_data] at h
    by_cases ha : a.id = pid
    · rw [if_pos ha] at h
      cases h
      exact ⟨List.mem_cons_self r rest, ha⟩
    · rw [if_neg ha] at h
      rcases ih h with ⟨hm, hid⟩
      exact ⟨List.mem_cons_of_mem _ hm, hid⟩
theorem filter_length_le_of_imp {α : Type} {p q : α → Bool} :
    ∀ l : List α, (∀ a ∈ l, p a = true → q a = true) →
      (l.filter p).length ≤ (l.filter q).length := by
  intro l
  induction l with
  | nil => intro _; exact Nat.le_refl 0
  | cons x rest ih =>
    intro h
    have hrest := ih (fun a ha hpa => h a (List.mem_cons_of_mem _ ha) hpa)
    by_cases hpx : p x = true
    · have hqx := h x (List.mem_cons_self x rest) hpx
      rw [List.filter_cons, List.filter_cons, if_pos hpx, if_pos hqx,
        List.length_cons, List.length_cons]
      exact Nat.succ_le_succ hrest
    · rw [List.filter_cons, if_neg hpx]
      by_cases hqx : q x = true
      · rw [List.filter_cons, if_pos hqx, List.length_cons]
        exact Nat.le_trans hrest (Nat.le_succ _)
      · rw [List.filter_cons, if_neg hqx]
        exact hrest

theorem filter_length_lt_of_mem {α : Type} {p q : α → Bool} :
    ∀ l : List α, ∀ a0 ∈ l, q a0 = true → p a0 = false →
      (∀ a ∈ l, p a = true → q a = true) →
      (l.filter p).length < (l.filter q).length := by
  intro l
  induction l with
  | nil => intro a0 ha0; simp at ha0
  | cons x rest ih =>
    intro a0 ha0 hq0 hp0 himp
    have himpr : ∀ a ∈ rest, p a = true → q a = true :=
      fun a ha hpa => himp a (List.mem_cons_of_mem _ ha) hpa
    rcases List.mem_cons.1 ha0 with rfl | ha0r
    · rw [List.filter_cons, List.filter_cons, if_pos hq0,
        if_neg (by rw [hp0]; exact Bool.false_ne_true), List.length_cons]
      exact Nat.lt_succ_of_le (filter_length_le_of_imp rest himpr)
    · have hr := ih a0 ha0r hq0 hp0 himpr
      by_cases hpx : p x = true
      · have hqx := himp x (List.mem_cons_self x rest) hpx
        rw [List.filter_cons, List.filter_cons, if_pos hpx, if_pos hqx,
          List.length_cons, List.length_cons]
        exact Nat.succ_lt_succ hr
      · rw [List.filter_cons, if_neg hpx]
        by_cases hqx : q x = true
        · rw [List.filter_cons, if_pos hqx, List.length_cons]
          exact Nat.lt_trans hr (Nat.lt_succ_self _)
        · rw [List.filter_cons, if_neg hqx]
          exact hr

theorem missingCount_le {snap : List ProcRecord} {c1 c2 : Collection}
    (h : ∀ x, (find_node_by_pid c1 x).isSome = true →
      (find_node_by_pid c2 x).isSome = true) :
    missingCount snap c2 ≤ missingCount snap c1 := by
  apply filter_length_le_of_imp
  intro a _ hpa
  simp only [Bool.not_eq_true'] at hpa
  simp only [Bool.not_eq_true']
  cases hb : (find_node_by_pid c1 a).isSome with
  | false => rfl
  | true =>
    rw [h a hb] at hpa
    cases hpa

theorem missingCount_insert_lt {snap : List ProcRecord} {c1 c2 : Collection} {pid : Int}
    (hmem : pid ∈ snap.map (fun r => r.id))
    (habsent : (find_node_by_pid c1 pid).isSome = false)
    (hpresent : (find_node_by_pid c2 pid).isSome = true)
    (h : ∀ x, (find_node_by_pid c1 x).isSome = true →
      (find_node_by_pid c2 x).isSome = true) :
    missingCount snap c2 < missingCount snap c1 := by
  apply filter_length_lt_of_mem _ pid hmem
  · simp only [Bool.not_eq_true']
    exact habsent
  · simp only [hpresent, Bool.not_true]
  · intro a _ hpa
    simp only [Bool.not_eq_true'] at hpa
    simp only [Bool.not_eq_true']
    cases hb : (find_node_by_pid c1 a).isSome with
    | false => rfl
    | true =>
      rw [h a hb] at hpa
      cases hpa

theorem discoverLoop_congr {snap : List ProcRecord}
    {r1 r2 : Collection → Int → Collection} {B : Nat}
    (hmono : ∀ c q x, (find_node_by_pid c x).isSome = true →
      (find_node_by_pid (r2 c q) x).isSome = true)
    (hagree : ∀ c q, missingCount snap c < B → r1 c q = r2 c q) :
    ∀ entries col parent_pid, missingCount snap col ≤ B →
      discoverLoop snap r1 entries col parent_pid =
        discoverLoop snap r2 entries col parent_pid := by
  intro entries
  induction entries with
  | nil =>
    intro col p _
    rw [discoverLoop, discoverLoop]
  | cons pid rest ih =>
    intro col p hB
    rw [discoverLoop, discoverLoop]
    by_cases hpid : pid > 0
    · rw [if_pos hpid, if_pos hpid]
      cases hfetch : fetch_process_data snap pid with
      | none => exact ih col p hB
      | some r =>
        dsimp only
        by_cases hpar : r.parent_id = p
        · rw [if_pos hpar, if_pos hpar]
          by_cases hin : (find_node_by_pid col pid).isSome = true
          · rw [if_pos hin, if_pos hin]
            exact ih col p hB
          · rw [if_neg hin, if_neg hin]
            have habs : find_node_by_pid col pid = none := by
              cases hf : find_node_by_pid col pid with
              | none => rfl
              | some m => rw [hf] at hin; exact absurd rfl hin
            have habsF : (find_node_by_pid col pid).isSome = false := by
              rw [habs]; rfl
            have hpres1 : (find_node_by_pid
                (add_to_collection col (create_node pid r.parent_id r.defunct))
                pid).isSome = true := by
              rw [find_add_to_collection, habs]
              simp [create_node]
            have hmonoc2 : ∀ x, (find_node_by_pid col x).isSome = true →
                (find_node_by_pid
                  (if (find_node_by_pid
                        (add_to_collection col (create_node pid r.parent_id r.defunct))
                        p).isSome = true then
                    add_child (add_to_collection col (create_node pid r.parent_id r.defunct))
                      p pid
                  else add_to_collection col (create_node pid r.parent_id r.defunct))
                  x).isSome = true := by
              intro x hx
              exact find_isSome_ite
                (find_isSome_add_child (find_isSome_add_to_collection hx))
                (find_isSome_add_to_collection hx)
            have hpres2 : (find_node_by_pid
                (if (find_node_by_pid
                      (add_to_collection col (create_node pid r.parent_id r.defunct))
                      p).isSome = true then
                  add_child (add_to_collection col (create_node pid r.parent_id r.defunct))
                    p pid
                else add_to_collection col (create_node pid r.parent_id r.defunct))
                pid).isSome = true :=
              find_isSome_ite (find_isSome_add_child hpres1) hpres1
            have hmem : pid ∈ snap.map (fun rr => rr.id) := by
              rcases fetch_eq_some hfetch with ⟨hrm, hrid⟩
              exact List.mem_map.2 ⟨r, hrm, hrid⟩
            have hlt : missingCount snap
                (if (find_node_by_pid
                      (add_to_collection col (create_node pid r.parent_id r.defunct))
                      p).isSome = true then
                  add_child (add_to_collection col (create_node pid r.parent_id r.defunct))
                    p pid
                else add_to_collection col (create_node pid r.parent_id r.defunct)) <
                missingCount snap col :=
              missingCount_insert_lt hmem habsF hpres2 hmonoc2
            rw [hagree _ pid (Nat.lt_of_lt_of_le hlt hB)]
            apply ih
            calc missingCount snap _ ≤ _ := missingCount_le (fun x hx => hmono _ pid x hx)
              _ ≤ B := Nat.le_trans (Nat.le_of_lt hlt) hB
        · rw [if_neg hpar, if_neg hpar]
          exact ih col p hB
    · rw [if_neg hpid, if_neg hpid]
      exact ih col p hB

theorem discoverRec_congr {snap : List ProcRecord} :
    ∀ B extra col parent_pid, missingCount snap col < B →
      discoverRec snap (B + extra) col parent_pid =
        discoverRec snap B col parent_pid := by
  intro B
  induction B with
  | zero =>
    intro extra col p h
    exact absurd h (Nat.not_lt_zero _)
  | succ B ih =>
    intro extra col p h
    have hshift : B + 1 + extra = (B + extra) + 1 := by omega
    rw [hshift, discoverRec, discoverRec]
    exact discoverLoop_congr (fun c q x hx => discoverRec_mono B c q x hx)
      (fun c q hc => ih extra c q hc) _ col p (Nat.lt_succ_iff.1 h)

theorem missingCount_le_length (snap : List ProcRecord) (col : Collection) :
    missingCount snap col ≤ snap.length := by
  have h := List.length_filter_le (fun i => !(find_node_by_pid col i).isSome)
    (snap.map (fun r => r.id))
  simpa [missingCount] using h

theorem discoverRec_stabilizes (snap : List ProcRecord) (extra : Nat) (col : Collection)
    (parent_pid : Int) :
    discoverRec snap (snap.length + 1 + extra) col parent_pid =
      discover_children snap col parent_pid :=
  discoverRec_congr (snap.length + 1) extra col parent_pid
    (Nat.lt_succ_of_le (missingCount_le_length snap col))

/-! ## Structural invariants of built collections -/

theorem mem_colIds_iff {col : Collection} {x : Int} :
    x ∈ colIds col ↔ ∃ n, n ∈ col.nodes ∧ n.id = x := by
  constructor
  · intro h
    rcases List.mem_map.1 h with ⟨n, hn, hid⟩
    exact ⟨n, hn, hid⟩
  · rintro ⟨n, hn, hid⟩
    exact List.mem_map.2 ⟨n, hn, hid⟩

theorem find_isSome_iff_mem_colIds {col : Collection} {x : Int} :
    (find_node_by_pid col x).isSome = true ↔ x ∈ colIds col := by
  constructor
  · intro h
    rcases findInList_isSome.1 h with ⟨n, hn, hid⟩
    exact mem_colIds_iff.2 ⟨n, hn, hid⟩
  · intro h
    rcases mem_colIds_iff.1 h with ⟨n, hn, hid⟩
    exact findInList_isSome.2 ⟨n, hn, hid⟩

theorem mem_id_inj {l : List PNode} (hnd : (l.map (fun n => n.id)).Nodup) :
    ∀ m1 ∈ l, ∀ m2 ∈ l, m1.id = m2.id → m1 = m2 := by
  induction l with
  | nil =>
    intro m1 hm1
    simp at hm1
  | cons a rest ih =>
    intro m1 hm1 m2 hm2 hid
    rw [List.map_cons, List.nodup_cons] at hnd
    rcases List.mem_cons.1 hm1 with rfl | hm1r
    · rcases List.mem_cons.1 hm2 with rfl | hm2r
      · rfl
      · exact absurd (hid ▸ List.mem_map.2 ⟨m2, hm2r, rfl⟩) hnd.1
    · rcases List.mem_cons.1 hm2 with rfl | hm2r
      · exact absurd (hid ▸ List.mem_map.2 ⟨m1, hm1r, rfl⟩) hnd.1
      · exact ih hnd.2 m1 hm1r m2 hm2r hid

theorem findInList_of_mem_nodup {l : List PNode} (hnd : (l.map (fun n => n.id)).Nodup)
    {n : PNode} (hn : n ∈ l) : findInList l n.id = some n := by
  induction l with
  | nil => simp at hn
  | cons a rest ih =>
    rw [findInList]
    rw [List.map_cons, List.nodup_cons] at hnd
    rcases List.mem_cons.1 hn with rfl | hnr
    · rw [if_pos rfl]
    · by_cases ha : a.id = n.id
      · exact absurd (ha ▸ List.mem_map.2 ⟨n, hnr, rfl⟩) hnd.1
      · rw [if_neg ha]
        exact ih hnd.2 hnr

theorem find_of_mem_nodup {col : Collection} (hnd : (colIds col).Nodup)
    {n : PNode} (hn : n ∈ col.nodes) : find_node_by_pid col n.id = some n :=
  findInList_of_mem_nodup hnd hn

theorem parent_mem_colIds {col : Collection} {root_pid : Int} (hinv : TreeInv col root_pid) :
    ∀ n ∈ col.nodes, ∀ p, n.parent = some p → p ∈ colIds col := by
  intro n hn p hp
  rcases List.mem_iff_get.1 hn with ⟨j, hj⟩
  have hj2 : (col.nodes.get ⟨j.1, j.2⟩).parent = some p := by
    rw [Fin.eta, hj]
    exact hp
  have := hinv.parIdx j.1 j.2 p hj2
  rcases List.mem_map.1 this with ⟨x, hx, hxid⟩
  exact List.mem_map.2 ⟨x, List.take_subset _ _ hx, hxid⟩

theorem child_not_fresh {col : Collection} {root_pid : Int} (hinv : TreeInv col root_pid)
    {n : PNode} (hn : n ∈ col.nodes) {pid : Int} (habs : pid ∉ colIds col) :
    pid ∉ n.children := by
  intro hc
  rcases hinv.childMem n hn pid hc with ⟨m, hm, hmid⟩
  exact habs (mem_colIds_iff.2 ⟨m, hm, hmid⟩)

theorem treeInv_insert_step {col : Collection} {root_pid pid ppid : Int} {zomb : Bool}
    (hinv : TreeInv col root_pid)
    (hpp : (find_node_by_pid col ppid).isSome = true)
    (habs : find_node_by_pid col pid = none) :
    TreeInv (add_child (add_to_collection col (create_node pid ppid zomb)) ppid pid)
      root_pid := by
  have hppmem : ppid ∈ colIds col := find_isSome_iff_mem_colIds.1 hpp
  have hpidnotin : pid ∉ colIds col := by
    intro hmem
    rcases mem_colIds_iff.1 hmem with ⟨n, hn, hid⟩
    exact findInList_eq_none.1 habs n hn hid
  have hne : pid ≠ ppid := fun h => hpidnotin (h ▸ hppmem)
  have hidnepid : ∀ n ∈ col.nodes, n.id ≠ pid := findInList_eq_none.1 habs
  have hUid : ∀ n, (updChild ppid pid n).id = n.id := updChild_id ppid pid
  have hUparent_old : ∀ n ∈ col.nodes, (updChild ppid pid n).parent = n.parent := by
    intro n hn
    rw [updChild_parent, if_neg (hidnepid n hn)]
  have hUNODE : updChild ppid pid (create_node pid ppid zomb) =
      { id := pid, parent_id := ppid, defunct := zomb, parent := some ppid,
        children := [] } := by
    rw [updChild_eq]
    simp [create_node, hne]
  have hUNid : (updChild ppid pid (create_node pid ppid zomb)).id = pid := by
    rw [hUNODE]
  have hUNparent : (updChild ppid pid (create_node pid ppid zomb)).parent = some ppid := by
    rw [hUNODE]
  have hUNparent_id : (updChild ppid pid (create_node pid ppid zomb)).parent_id = ppid := by
    rw [hUNODE]
  have hUNchildren : (updChild ppid pid (create_node pid ppid zomb)).children = [] := by
    rw [hUNODE]
  simp only [add_child, add_to_collection]
  have hmem2 : ∀ n2,
      n2 ∈ (col.nodes ++ [create_node pid ppid zomb]).map (updChild ppid pid) ↔
      (∃ n0 ∈ col.nodes, n2 = updChild ppid pid n0) ∨
        n2 = updChild ppid pid (create_node pid ppid zomb) := by
    intro n2
    rw [List.mem_map]
    constructor
    · rintro ⟨n0, hn0, rfl⟩
      rcases List.mem_append.1 hn0 with h | h
      · exact Or.inl ⟨n0, h, rfl⟩
      · rcases List.mem_singleton.1 h with rfl
        exact Or.inr rfl
    · rintro (⟨n0, hn0, rfl⟩ | rfl)
      · exact ⟨n0, List.mem_append_left _ hn0, rfl⟩
      · exact ⟨_, List.mem_append_right _ (List.mem_singleton_self _), rfl⟩
  refine ⟨?_, ?_, ?_, ?_, ?_, ?_, ?_, ?_, ?_⟩
  · -- nodup
    have hcomp : (fun n : PNode => n.id) ∘ updChild ppid pid = fun n : PNode => n.id := by
      funext n
      exact hUid n
    simp only [colIds]
    rw [List.map_map, hcomp, List.map_append]
    have hsing : List.map (fun n : PNode => n.id) [create_node pid ppid zomb] = [pid] := rfl
    rw [hsing, List.nodup_append]
    refine ⟨hinv.nodup, List.nodup_singleton _, ?_⟩
    intro a ha hb
    have hab : a = pid := List.mem_singleton.1 hb
    rw [hab] at ha
    exact hpidnotin ha
  · -- parIdx
    intro j hj p hpar
    rw [List.get_eq_getElem, List.getElem_map] at hpar
    have hjlen : j < col.nodes.length + 1 := by simpa using hj
    rw [← List.map_take, List.map_map]
    have hcomp : (fun n => n.id) ∘ updChild ppid pid = fun n => n.id :=
      funext hUid
    rw [hcomp]
    by_cases hcase : j < col.nodes.length
    · rw [List.getElem_append_left hcase] at hpar
      have hmemj : col.nodes[j] ∈ col.nodes := List.getElem_mem _
      rw [updChild_parent, if_neg (hidnepid _ hmemj)] at hpar
      have hold := hinv.parIdx j hcase p (by rw [List.get_eq_getElem]; exact hpar)
      rw [List.take_append_of_le_length (Nat.le_of_lt hcase)]
      exact hold
    · have hj_eq : j = col.nodes.length := by omega
      subst hj_eq
      rw [List.getElem_concat_length _ _ _ rfl] at hpar
      rw [hUNparent] at hpar
      have hp_eq : p = ppid := (Option.some.inj hpar).symm
      subst hp_eq
      rw [List.take_append_of_le_length (Nat.le_refl _), List.take_length]
      exact hppmem
  · -- parEq
    intro n2 hn2 p hp
    rcases (hmem2 n2).1 hn2 with ⟨n0, hn0, rfl⟩ | rfl
    · rw [hUparent_old n0 hn0] at hp
      rw [updChild_parent_id]
      exact hinv.parEq n0 hn0 p hp
    · rw [hUNparent] at hp
      rw [hUNparent_id]
      exact (Option.some.inj hp).symm
  · -- childMem
    intro n2 hn2 c hc
    rcases (hmem2 n2).1 hn2 with ⟨n0, hn0, rfl⟩ | rfl
    · rw [updChild_children] at hc
      by_cases h0 : n0.id = ppid
      · rw [if_pos h0] at hc
        rcases List.mem_append.1 hc with hcold | hcnew
        · rcases hinv.childMem n0 hn0 c hcold with ⟨m, hm, hmid⟩
          exact ⟨updChild ppid pid m, (hmem2 _).2 (Or.inl ⟨m, hm, rfl⟩),
            by rw [hUid]; exact hmid⟩
        · have hceq : c = pid := List.mem_singleton.1 hcnew
          exact ⟨updChild ppid pid (create_node pid ppid zomb),
            (hmem2 _).2 (Or.inr rfl), by rw [hUNid, hceq]⟩
      · rw [if_neg h0] at hc
        rcases hinv.childMem n0 hn0 c hc with ⟨m, hm, hmid⟩
        exact ⟨updChild ppid pid m, (hmem2 _).2 (Or.inl ⟨m, hm, rfl⟩),
          by rw [hUid]; exact hmid⟩
    · rw [hUNchildren] at hc
      simp at hc
  · -- childCount
    intro n2 hn2 m2 hm2
    rcases (hmem2 n2).1 hn2 with ⟨n0, hn0, rfl⟩ | rfl
    · rcases (hmem2 m2).1 hm2 with ⟨m0, hm0, rfl⟩ | rfl
      · rw [updChild_children, hUparent_old m0 hm0, hUid n0, hUid m0]
        by_cases h0 : n0.id = ppid
        · rw [if_pos h0, List.count_append]
          have hz : List.count m0.id [pid] = 0 := by
            rw [List.count_singleton]
            rw [if_neg]
            intro hb
            exact hidnepid m0 hm0 (beq_iff_eq.1 hb).symm
          rw [hz, Nat.add_zero]
          exact hinv.childCount n0 hn0 m0 hm0
        · rw [if_neg h0]
          exact hinv.childCount n0 hn0 m0 hm0
      · rw [updChild_children, hUNid, hUNparent, hUid n0]
        have hnotin : pid ∉ n0.children := child_not_fresh hinv hn0 hpidnotin
        by_cases h0 : n0.id = ppid
        · rw [if_pos h0, List.count_append, List.count_eq_zero.2 hnotin,
            List.count_singleton, if_pos (beq_iff_eq.2 rfl)]
          rw [if_pos (by rw [h0])]
        · rw [if_neg h0, List.count_eq_zero.2 hnotin]
          rw [if_neg]
          intro hcontra
          exact h0 ((Option.some.inj hcontra).symm)
    · rcases (hmem2 m2).1 hm2 with ⟨m0, hm0, rfl⟩ | rfl
      · rw [hUNchildren, hUNid, hUparent_old m0 hm0]
        have hnp : m0.parent ≠ some pid := by
          intro hp
          exact hpidnotin (parent_mem_colIds hinv m0 hm0 pid hp)
        rw [List.count_nil, if_neg hnp]
      · rw [hUNchildren, hUNid, hUNparent]
        have hnp : (some ppid : Option Int) ≠ some pid := by
          intro h
          exact hne (Option.some.inj h).symm
        rw [List.count_nil, if_neg hnp]
  · -- rootEq
    intro r hr
    exact hinv.rootEq r hr
  · -- rootFirst
    intro hroot
    rcases hinv.rootFirst hroot with ⟨h0, hid0, hpar0⟩
    have h0m : 0 < ((col.nodes ++ [create_node pid ppid zomb]).map
        (updChild ppid pid)).length := by
      rw [List.length_map, List.length_append]
      omega
    refine ⟨h0m, ?_, ?_⟩
    · rw [List.get_eq_getElem, List.getElem_map, List.getElem_append_left h0, hUid]
      rw [List.get_eq_getElem] at hid0
      exact hid0
    · rw [List.get_eq_getElem, List.getElem_map, List.getElem_append_left h0]
      have hmem0 : col.nodes[0] ∈ col.nodes := List.getElem_mem _
      rw [hUparent_old _ hmem0]
      rw [List.get_eq_getElem] at hpar0
      exact hpar0
  · -- allLinked
    intro n2 hn2 hp
    rcases (hmem2 n2).1 hn2 with ⟨n0, hn0, rfl⟩ | rfl
    · rw [hUparent_old n0 hn0] at hp
      rw [hUid]
      exact hinv.allLinked n0 hn0 hp
    · rw [hUNparent] at hp
      cases hp
  · -- rootNoneEmpty
    intro hroot
    exfalso
    have hempty := hinv.rootNoneEmpty hroot
    have hids_nil : colIds col = [] := by
      rw [colIds, hempty]
      rfl
    rw [hids_nil] at hppmem
    simp at hppmem

theorem discoverLoop_inv {snap : List ProcRecord} {root_pid : Int}
    {recurse : Collection → Int → Collection}
    (hrec_inv : ∀ c q, TreeInv c root_pid → (find_node_by_pid c q).isSome = true →
      TreeInv (recurse c q) root_pid)
    (hrec_mono : ∀ c q x, (find_node_by_pid c x).isSome = true →
      (find_node_by_pid (recurse c q) x).isSome = true) :
    ∀ entries col parent_pid, TreeInv col root_pid →
      (find_node_by_pid col parent_pid).isSome = true →
      TreeInv (discoverLoop snap recurse entries col parent_pid) root_pid := by
  intro entries
  induction entries with
  | nil =>
    intro col p hinv _
    rw [discoverLoop]
    exact hinv
  | cons pid rest ih =>
    intro col p hinv hpp
    rw [discoverLoop]
    by_cases hpid : pid > 0
    · rw [if_pos hpid]
      cases hfetch : fetch_process_data snap pid with
      | none => exact ih col p hinv hpp
      | some r =>
        dsimp only
        by_cases hpar : r.parent_id = p
        · rw [if_pos hpar]
          by_cases hin : (find_node_by_pid col pid).isSome = true
          · rw [if_pos hin]
            exact ih col p hinv hpp
          · rw [if_neg hin]
            have habs : find_node_by_pid col pid = none := by
              cases hf : find_node_by_pid col pid with
              | none => rfl
              | some m => rw [hf] at hin; exact absurd rfl hin
            rw [hpar]
            have hcond : (find_node_by_pid
                (add_to_collection col (create_node pid p r.defunct)) p).isSome = true :=
              find_isSome_add_to_collection hpp
            rw [if_pos hcond]
            have hinv2 : TreeInv
                (add_child (add_to_collection col (create_node pid p r.defunct)) p pid)
                root_pid :=
              treeInv_insert_step hinv hpp habs
            have hpres1 : (find_node_by_pid
                (add_to_collection col (create_node pid p r.defunct)) pid).isSome = true := by
              rw [find_add_to_collection, habs]
              simp [create_node]
            have hpres2pid : (find_node_by_pid
                (add_child (add_to_collection col (create_node pid p r.defunct)) p pid)
                pid).isSome = true :=
              find_isSome_add_child hpres1
            have hpres2p : (find_node_by_pid
                (add_child (add_to_collection col (create_node pid p r.defunct)) p pid)
                p).isSome = true :=
              find_isSome_add_child hcond
            exact ih _ p (hrec_inv _ pid hinv2 hpres2pid) (hrec_mono _ pid p hpres2p)
        · rw [if_neg hpar]
          exact ih col p hinv hpp
    · rw [if_neg hpid]
      exact ih col p hinv hpp

theorem discoverRec_inv {snap : List ProcRecord} {root_pid : Int} :
    ∀ fuel col parent_pid, TreeInv col root_pid →
      (find_node_by_pid col parent_pid).isSome = true →
      TreeInv (discoverRec snap fuel col parent_pid) root_pid := by
  intro fuel
  induction fuel with
  | zero =>
    intro col p hinv _
    rw [discoverRec]
    exact hinv
  | succ fuel ih =>
    intro col p hinv hpp
    rw [discoverRec]
    exact discoverLoop_inv (fun c q hc hq => ih c q hc hq)
      (fun c q x hx => discoverRec_mono fuel c q x hx) _ col p hinv hpp

theorem discover_children_inv {snap : List ProcRecord} {root_pid : Int}
    {col : Collection} {parent_pid : Int} (hinv : TreeInv col root_pid)
    (hpp : (find_node_by_pid col parent_pid).isSome = true) :
    TreeInv (discover_children snap col parent_pid) root_pid :=
  discoverRec_inv _ col parent_pid hinv hpp

theorem treeInv_root_only (root_pid ppid : Int) (zomb : Bool) :
    TreeInv { nodes := [create_node root_pid ppid zomb], root := some root_pid }
      root_pid := by
  refine ⟨?_, ?_, ?_, ?_, ?_, ?_, ?_, ?_, ?_⟩
  · simp [colIds, create_node]
  · intro j hj p hpar
    have hj0 : j = 0 := by
      simp at hj
      omega
    subst hj0
    have : (create_node root_pid ppid zomb).parent = none := rfl
    rw [List.get_eq_getElem] at hpar
    simp only [List.getElem_singleton] at hpar
    rw [this] at hpar
    cases hpar
  · intro n hn p hp
    rcases List.mem_singleton.1 hn with rfl
    rw [show (create_node root_pid ppid zomb).parent = none from rfl] at hp
    cases hp
  · intro n hn c hc
    rcases List.mem_singleton.1 hn with rfl
    rw [show (create_node root_pid ppid zomb).children = [] from rfl] at hc
    simp at hc
  · intro n hn m hm
    rcases List.mem_singleton.1 hn with rfl
    rcases List.mem_singleton.1 hm with rfl
    rw [show (create_node root_pid ppid zomb).children = [] from rfl]
    rw [show (create_node root_pid ppid zomb).parent = none from rfl]
    rw [List.count_nil, if_neg]
    intro h
    cases h
  · intro r hr
    exact (Option.some.inj hr).symm
  · intro _
    refine ⟨by simp, ?_, ?_⟩
    · rw [List.get_eq_getElem]
      simp only [List.getElem_singleton]
      rfl
    · rw [List.get_eq_getElem]
      simp only [List.getElem_singleton]
      rfl
  · intro n hn _
    rcases List.mem_singleton.1 hn with rfl
    rfl
  · intro h
    cases h

theorem treeInv_empty (root_pid : Int) : TreeInv init_collection root_pid := by
  refine ⟨?_, ?_, ?_, ?_, ?_, ?_, ?_, ?_, ?_⟩
  · simp [colIds, init_collection]
  · intro j hj p hpar
    simp [init_collection] at hj
  · intro n hn
    simp [init_collection] at hn
  · intro n hn
    simp [init_collection] at hn
  · intro n hn
    simp [init_collection] at hn
  · intro r hr
    simp [init_collection] at hr
  · intro h
    simp [init_collection] at h
  · intro n hn
    simp [init_collection] at hn
  · intro _
    rfl

theorem build_phase1_inv (snap : List ProcRecord) (root_pid : Int) :
    TreeInv (build_phase1 snap root_pid) root_pid := by
  rw [build_phase1]
  cases hfetch : fetch_process_data snap root_pid with
  | none => exact treeInv_empty root_pid
  | some r =>
    dsimp only
    apply discover_children_inv
    · exact treeInv_root_only root_pid r.parent_id r.defunct
    · show (findInList ([] ++ [create_node root_pid r.parent_id r.defunct])
        root_pid).isSome = true
      rw [List.nil_append, findInList,
        if_pos (show (create_node root_pid r.parent_id r.defunct).id = root_pid from rfl)]
      rfl

theorem foldl_fixed {α : Type} {β : Type} {f : α → β → α} {a : α} :
    ∀ l : List β, (∀ x ∈ l, f a x = a) → l.foldl f a = a := by
  intro l
  induction l with
  | nil => intro _; rfl
  | cons x rest ih =>
    intro h
    rw [List.foldl_cons, h x (List.mem_cons_self x rest)]
    exact ih (fun y hy => h y (List.mem_cons_of_mem _ hy))

theorem reconcile_pass_id {col : Collection} {root_pid : Int} (hinv : TreeInv col root_pid) :
    reconcile_pass root_pid col = col := by
  rw [reconcile_pass]
  apply foldl_fixed
  intro i _
  cases hget : col.nodes[i]? with
  | none => rfl
  | some node =>
    dsimp only
    have hmem : node ∈ col.nodes := List.getElem?_mem hget
    by_cases hroot : node.id = root_pid
    · rw [if_pos hroot]
    · rw [if_neg hroot]
      have hparent : node.parent ≠ none := fun h => hroot (hinv.allLinked node hmem h)
      cases hfind : find_node_by_pid col node.parent_id with
      | none => rfl
      | some m =>
        dsimp only
        rw [if_neg hparent]

theorem build_eq_phase1 (snap : List ProcRecord) (root_pid : Int) :
    build_process_hierarchy snap root_pid = build_phase1 snap root_pid := by
  rw [build_process_hierarchy, reconcile_pass_id (build_phase1_inv snap root_pid)]

theorem build_inv (snap : List ProcRecord) (root_pid : Int) :
    TreeInv (build_process_hierarchy snap root_pid) root_pid := by
  rw [build_eq_phase1]
  exact build_phase1_inv snap root_pid

theorem build_root (snap : List ProcRecord) (root_pid : Int) :
    (build_process_hierarchy snap root_pid).root =
      if (fetch_process_data snap root_pid).isSome = true then some root_pid
      else none := by
  rw [build_eq_phase1, build_phase1]
  cases hfetch : fetch_process_data snap root_pid with
  | none => rfl
  | some r =>
    dsimp only
    rw [discover_children, discoverRec_root,
      if_pos (show (Option.some r).isSome = true from rfl)]

/-! ## Ancestor chains in well-formed collections -/

theorem nthAnc_succ (col : Collection) (k : Nat) (n : PNode) :
    nthAnc col (k + 1) n =
      match parentStep col n with
      | none => none
      | some m => nthAnc col k m := rfl

theorem parentStep_idx {col : Collection} {root_pid : Int} (hinv : TreeInv col root_pid)
    {j : Nat} (hj : j < col.nodes.length) {m : PNode}
    (h : parentStep col (col.nodes[j]) = some m) :
    ∃ i, ∃ hi : i < col.nodes.length, m = col.nodes[i] ∧ i < j := by
  rw [parentStep] at h
  cases hp : (col.nodes[j]).parent with
  | none => rw [hp] at h; cases h
  | some p =>
    rw [hp] at h
    have hpx := hinv.parIdx j hj p (by rw [List.get_eq_getElem]; exact hp)
    rcases List.mem_map.1 hpx with ⟨x, hxtake, hxid⟩
    rcases List.mem_iff_getElem.1 hxtake with ⟨i, hilen, hieq⟩
    have hitake : i < j := by
      rw [List.length_take] at hilen
      omega
    have hixlen : i < col.nodes.length := by
      rw [List.length_take] at hilen
      omega
    have hxi : col.nodes[i] = x := by
      rw [← hieq, List.getElem_take]
    rcases findInList_eq_some h with ⟨hm_mem, hm_id⟩
    have hx_mem : x ∈ col.nodes := by
      rw [← hxi]
      exact List.getElem_mem hixlen
    have hmx : m = x := mem_id_inj hinv.nodup m hm_mem x hx_mem (by rw [hm_id, hxid])
    exact ⟨i, hixlen, by rw [hmx, hxi], hitake⟩

theorem nthAnc_idx {col : Collection} {root_pid : Int} (hinv : TreeInv col root_pid) :
    ∀ k j, ∀ hj : j < col.nodes.length, ∀ m,
      nthAnc col k (col.nodes[j]) = some m →
      ∃ i, ∃ hi : i < col.nodes.length, m = col.nodes[i] ∧ i + k ≤ j := by
  intro k
  induction k with
  | zero =>
    intro j hj m h
    rw [nthAnc] at h
    exact ⟨j, hj, (Option.some.inj h).symm, by omega⟩
  | succ k ih =>
    intro j hj m h
    rw [nthAnc] at h
    cases hps : parentStep col (col.nodes[j]) with
    | none => rw [hps] at h; cases h
    | some m1 =>
      rw [hps] at h
      rcases parentStep_idx hinv hj hps with ⟨i1, hi1, hm1, hlt⟩
      rcases ih i1 hi1 m (by rw [← hm1]; exact h) with ⟨i, hi, hmi, hik⟩
      exact ⟨i, hi, hmi, by omega⟩

theorem nthAnc_mem {col : Collection} {root_pid : Int} (hinv : TreeInv col root_pid)
    {k : Nat} {n m : PNode} (hn : n ∈ col.nodes) (h : nthAnc col k n = some m) :
    m ∈ col.nodes := by
  rcases List.mem_iff_getElem.1 hn with ⟨j, hj, hjeq⟩
  rcases nthAnc_idx hinv k j hj m (by rw [hjeq]; exact h) with ⟨i, hi, hmi, _⟩
  rw [hmi]
  exact List.getElem_mem hi

theorem nthAnc_comp (col : Collection) :
    ∀ a b n, nthAnc col (a + b) n = (nthAnc col b n).bind (nthAnc col a) := by
  intro a b
  induction b with
  | zero =>
    intro n
    rfl
  | succ b ih =>
    intro n
    rw [show a + (b + 1) = (a + b) + 1 from rfl, nthAnc_succ, nthAnc_succ]
    cases hps : parentStep col n with
    | none => rfl
    | some m => exact ih m

theorem nthAnc_self_eq_zero {col : Collection} {root_pid : Int} (hinv : TreeInv col root_pid)
    {k : Nat} {n : PNode} (hn : n ∈ col.nodes) (h : nthAnc col k n = some n) : k = 0 := by
  rcases List.mem_iff_getElem.1 hn with ⟨j, hj, hjeq⟩
  rcases nthAnc_idx hinv k j hj n (by rw [hjeq]; exact h) with ⟨i, hi, hni, hik⟩
  have hnd : col.nodes.Nodup := List.Nodup.of_map _ hinv.nodup
  have hfin : (⟨i, hi⟩ : Fin col.nodes.length) = ⟨j, hj⟩ :=
    (List.nodup_iff_injective_get.1 hnd)
      (by rw [List.get_eq_getElem, List.get_eq_getElem, ← hni, hjeq])
  have hij : i = j := congrArg Fin.val hfin
  omega

theorem nthAnc_inj {col : Collection} {root_pid : Int} (hinv : TreeInv col root_pid)
    {a b : Nat} {n x : PNode} (hn : n ∈ col.nodes)
    (ha : nthAnc col a n = some x) (hb : nthAnc col b n = some x) : a = b := by
  rcases Nat.le_total a b with hle | hle
  · have hcomb : nthAnc col ((b - a) + a) n = some x := by
      rw [Nat.sub_add_cancel hle]
      exact hb
    rw [nthAnc_comp, ha] at hcomb
    have hx : nthAnc col (b - a) x = some x := hcomb
    have hmemx : x ∈ col.nodes := nthAnc_mem hinv hn ha
    have := nthAnc_self_eq_zero hinv hmemx hx
    omega
  · have hcomb : nthAnc col ((a - b) + b) n = some x := by
      rw [Nat.sub_add_cancel hle]
      exact ha
    rw [nthAnc_comp, hb] at hcomb
    have hx : nthAnc col (a - b) x = some x := hcomb
    have hmemx : x ∈ col.nodes := nthAnc_mem hinv hn hb
    have := nthAnc_self_eq_zero hinv hmemx hx
    omega

theorem chain_reaches_parentless {col : Collection} {root_pid : Int}
    (hinv : TreeInv col root_pid) :
    ∀ j, ∀ hj : j < col.nodes.length,
      ∃ k ≤ j, ∃ m, nthAnc col k (col.nodes[j]) = some m ∧ m.parent = none := by
  intro j
  induction j using Nat.strong_induction_on with
  | _ j ih =>
    intro hj
    cases hp : (col.nodes[j]).parent with
    | none => exact ⟨0, Nat.zero_le j, col.nodes[j], rfl, hp⟩
    | some p =>
      have hpmem : p ∈ colIds col := by
        have hpx := hinv.parIdx j hj p (by rw [List.get_eq_getElem]; exact hp)
        rcases List.mem_map.1 hpx with ⟨x, hxtake, hxid⟩
        exact List.mem_map.2 ⟨x, List.take_subset _ _ hxtake, hxid⟩
      have hfind : (find_node_by_pid col p).isSome = true :=
        find_isSome_iff_mem_colIds.2 hpmem
      rcases Option.isSome_iff_exists.1 hfind with ⟨m1, hm1⟩
      have hps : parentStep col (col.nodes[j]) = some m1 := by
        rw [parentStep, hp]
        exact hm1
      rcases parentStep_idx hinv hj hps with ⟨i, hi, hm1i, hij⟩
      rcases ih i hij hi with ⟨k, hk, m, hchain, hmp⟩
      refine ⟨k + 1, by omega, m, ?_, hmp⟩
      rw [nthAnc_succ, hps]
      show nthAnc col k m1 = some m
      rw [hm1i]
      exact hchain

/-! ## Claim C3 -/

/-- C3: for every finite input snapshot (including self- or
mutually-parenting records) the builder terminates — the fuel-indexed
approximation of the unbounded `discover_children` recursion no longer
changes once the fuel reaches `snap.length + 1`, for any starting
collection — and in the built structure every node's parent chain reaches
a node with no parent within at most `size` steps: a finite rooted tree
with no cycles. -/
theorem c3_builder_terminates_acyclic (snap : List ProcRecord) (root_pid : Int) :
    (∀ extra col parent_pid,
      discoverRec snap (snap.length + 1 + extra) col parent_pid =
        discover_children snap col parent_pid) ∧
    (∀ n ∈ (build_process_hierarchy snap root_pid).nodes,
      ∃ k ≤ (build_process_hierarchy snap root_pid).nodes.length, ∃ m,
        nthAnc (build_process_hierarchy snap root_pid) k n = some m ∧
          m.parent = none) := by
  constructor
  · intro extra col p
    exact discoverRec_stabilizes snap extra col p
  · intro n hn
    rcases List.mem_iff_getElem.1 hn with ⟨j, hj, hjeq⟩
    rcases chain_reaches_parentless (build_inv snap root_pid) j hj with
      ⟨k, hk, m, hch, hmp⟩
    rw [hjeq] at hch
    exact ⟨k, by omega, m, hch, hmp⟩

/-- Witness for C3 at a concrete input: the node with pid 3 in the tree
built from the chain snapshot reaches a parentless node. -/
theorem c3_witness :
    ∃ k ≤ (build_process_hierarchy chain4 1).nodes.length, ∃ m,
      nthAnc (build_process_hierarchy chain4 1) k
        { id := 3, parent_id := 2, defunct := false, parent := some 2,
          children := [4] } = some m ∧ m.parent = none :=
  (c3_builder_terminates_acyclic chain4 1).2
    { id := 3, parent_id := 2, defunct := false, parent := some 2, children := [4] }
    (by decide)

/-! ## Claim C10 -/

/-- C10: every node inserted during discovery is linked to its parent at
insertion time, so after discovery every non-root node already has a
non-null parent link, the reconciliation loop changes nothing, and the
built tree is identical with or without the reconciliation pass. -/
theorem c10_reconcile_noop (snap : List ProcRecord) (root_pid : Int) :
    (∀ n ∈ (build_phase1 snap root_pid).nodes,
      n.id ≠ root_pid → n.parent.isSome = true) ∧
    reconcile_pass root_pid (build_phase1 snap root_pid) = build_phase1 snap root_pid ∧
    build_process_hierarchy snap root_pid = build_phase1 snap root_pid := by
  refine ⟨?_, reconcile_pass_id (build_phase1_inv snap root_pid),
    build_eq_phase1 snap root_pid⟩
  intro n hn hne
  have hinv := build_phase1_inv snap root_pid
  cases hp : n.parent with
  | none => exact absurd (hinv.allLinked n hn hp) hne
  | some p => rfl

/-- Witness for C10 at a concrete input: the non-root node with pid 2 of
the example tree already carries a parent link after discovery. -/
theorem c10_witness :
    ({ id := 2, parent_id := 1, defunct := true, parent := some 1,
       children := [4] } : PNode).parent.isSome = true :=
  (c10_reconcile_noop specExample 1).1
    { id := 2, parent_id := 1, defunct := true, parent := some 1, children := [4] }
    (by decide) (by decide)

/-! ## Claim C1 -/

/-- C1 (code evaluation at the failing input): on the chain snapshot
1 ← 2 ← 3 ← 4, `get_indirect_descendants` of the root returns only the
grandchild `[3]`, even though pid 4 is a descendant of 1 at depth 3 (its
parent chain reaches pid 1 after exactly 3 steps); the claimed "all
descendants at depth ≥ 2" would be `[3, 4]`.  The recursion in
`collect_indirect_descendants` descends two levels at a time and only ever
collects even-depth descendants. -/
theorem c1_indirect_skips_depth3 :
    (get_indirect_descendants (build_process_hierarchy chain4 1) 1).result_ids = [3] ∧
    ((find_node_by_pid (build_process_hierarchy chain4 1) 4).bind
        (fun n => (nthAnc (build_process_hierarchy chain4 1) 3 n).map (fun m => m.id)))
      = some 1 ∧
    (4 : Int) ∉ (get_indirect_descendants (build_process_hierarchy chain4 1) 1).result_ids := by
  decide

/-! ## Claim C2 -/

/-- C2 (counterexample): with an empty snapshot the root fetch fails and
the tree is empty; `-rp` then delivers no signal at all, refuting the
claim that the originally supplied root pid (here 5) is always signaled
regardless of tree contents. -/
theorem c2_counterexample :
    ¬ ((runMain [] 5 5 (some "-rp")).2 = [((5 : Int), Sig.kill)]) := by
  decide

theorem runMain_rp_kills (snap : List ProcRecord) (root_pid target_pid : Int) :
    (runMain snap root_pid target_pid (some "-rp")).2 =
      if (fetch_process_data snap root_pid).isSome = true
      then [(root_pid, Sig.kill)] else [] := by
  have hroot := build_root snap root_pid
  rw [runMain]
  dsimp only
  rw [if_pos rfl]
  rw [handle_kill_root]
  cases hfetch : fetch_process_data snap root_pid with
  | none =>
    rw [hfetch] at hroot
    simp only [Option.isSome_none, Bool.false_eq_true, if_false] at hroot
    rw [hroot]
    simp
  | some r =>
    rw [hfetch] at hroot
    simp only [Option.isSome_some, if_true] at hroot
    rw [hroot]
    simp

/-- C2 (amended): `-rp` attempts exactly one kill, aimed at the originally
supplied root pid, precisely when the root fetch succeeded (the tree has a
root); on an empty tree no signal is attempted. -/
theorem c2_kill_root_amended (snap : List ProcRecord) (root_pid target_pid : Int) :
    (runMain snap root_pid target_pid (some "-rp")).2 =
      if (fetch_process_data snap root_pid).isSome = true
      then [(root_pid, Sig.kill)] else [] :=
  runMain_rp_kills snap root_pid target_pid

/-! ## Claim C9 -/

theorem filterMap_isSome_length {α : Type} {β : Type} (f : α → Option β) :
    ∀ l : List α, (∀ a ∈ l, (f a).isSome = true) → (l.filterMap f).length = l.length := by
  intro l
  induction l with
  | nil => intro _; rfl
  | cons a rest ih =>
    intro h
    rcases Option.isSome_iff_exists.1 (h a (List.mem_cons_self a rest)) with ⟨b, hb⟩
    rw [List.filterMap_cons_some hb, List.length_cons, List.length_cons]
    rw [ih (fun x hx => h x (List.mem_cons_of_mem _ hx))]

theorem findInList_starChild : ∀ (l : List Nat) (i : Nat), i ∈ l →
    (findInList (l.map starChild) (Int.ofNat i + 1)).isSome = true := by
  intro l
  induction l with
  | nil =>
    intro i hi
    simp at hi
  | cons a rest ih =>
    intro i hi
    rw [List.map_cons, findInList]
    by_cases hai : (starChild a).id = Int.ofNat i + 1
    · rw [if_pos hai]
      rfl
    · rw [if_neg hai]
      rcases List.mem_cons.1 hi with rfl | hir
      · exact absurd rfl hai
      · exact ih i hir

/-- C9: every query/action result is collected into the fixed 1000-entry
buffer allocated by `init_result`; the writes (at indices `0 … count-1`)
all stay within the capacity exactly when at most 1000 ids match, and the
star tree with 1001 direct children of the root makes
`get_direct_descendants` collect 1001 ids — one more than the allocated
capacity, so the write index exceeds the buffer. -/
theorem c9_result_capacity :
    (∀ col pid, (∀ i, i < (get_direct_descendants col pid).result_ids.length →
        i < resultCapacity) ↔
      (get_direct_descendants col pid).result_ids.length ≤ resultCapacity) ∧
    resultCapacity < (get_direct_descendants (starCol 1001) 0).result_ids.length := by
  constructor
  · intro col pid
    constructor
    · intro h
      by_contra hcon
      push_neg at hcon
      exact absurd (h resultCapacity (by omega)) (by omega)
    · intro h i hi
      omega
  · have hfindroot : find_node_by_pid (starCol 1001) 0 = some (starRoot 1001) := by
      show findInList (starRoot 1001 :: (List.range 1001).map starChild) 0 = _
      rw [findInList, if_pos (show (starRoot 1001).id = 0 from rfl)]
    rw [get_direct_descendants]
    rw [hfindroot]
    dsimp only
    have hch : (starRoot 1001).children =
        (List.range 1001).map (fun i => Int.ofNat i + 1) := by
      rw [starRoot]
    rw [List.length_map, childNodes, hch, filterMap_isSome_length]
    · rw [List.length_map, List.length_range]
      show 1000 < 1001
      omega
    · intro c hc
      rcases List.mem_map.1 hc with ⟨i, hi, rfl⟩
      show (findInList (starCol 1001).nodes (Int.ofNat i + 1)).isSome = true
      rw [show (starCol 1001).nodes =
        starRoot 1001 :: (List.range 1001).map starChild from rfl]
      rw [findInList, if_neg]
      · exact findInList_starChild _ i hi
      · intro h0
        have hcast : (0 : Int) = Int.ofNat i + 1 := h0
        rw [Int.ofNat_eq_natCast] at hcast
        omega

/-- Witness for C9 at a concrete input: in the example tree the root has
two children, so every write index stays below the capacity. -/
theorem c9_witness : (1 : Nat) < resultCapacity :=
  (c9_result_capacity.1 (build_process_hierarchy specExample 1) 1).2 (by decide) 1 (by decide)

/-! ## Claim C4 -/

/-- C4: in every tree produced by the builder, each non-root node's parent
link is set, equals the node's `parent_id`, resolves (via `find_node_by_pid`)
to a node carrying that pid, and that parent's `children` sequence contains
the node's pid exactly once — bidirectional consistency without
double-linking. -/
theorem c4_bidirectional_consistency (snap : List ProcRecord) (root_pid : Int) :
    ∀ n ∈ (build_process_hierarchy snap root_pid).nodes, n.id ≠ root_pid →
      n.parent = some n.parent_id ∧
      ∃ m, find_node_by_pid (build_process_hierarchy snap root_pid) n.parent_id = some m ∧
        m.id = n.parent_id ∧ m.children.count n.id = 1 := by
  intro n hn hne
  have hinv := build_inv snap root_pid
  cases hp : n.parent with
  | none => exact absurd (hinv.allLinked n hn hp) hne
  | some p =>
    have hpe : p = n.parent_id := hinv.parEq n hn p hp
    have hpmem : p ∈ colIds (build_process_hierarchy snap root_pid) :=
      parent_mem_colIds hinv n hn p hp
    rcases mem_colIds_iff.1 hpmem with ⟨m, hm, hmid⟩
    have hfind : find_node_by_pid (build_process_hierarchy snap root_pid) p = some m := by
      rw [← hmid]
      exact find_of_mem_nodup hinv.nodup hm
    have hcount := hinv.childCount m hm n hn
    rw [hp, hmid, if_pos rfl] at hcount
    constructor
    · rw [hpe]
    · exact ⟨m, by rw [← hpe]; exact hfind, by rw [hmid, hpe], hcount⟩

/-- Witness for C4 at a concrete input: node 2 of the example tree is
consistently linked under its parent 1. -/
theorem c4_witness :
    ({ id := 2, parent_id := 1, defunct := true, parent := some 1, children := [4] } : PNode).parent = some ({ id := 2, parent_id := 1, defunct := true, parent := some 1, children := [4] } : PNode).parent_id ∧
    ∃ m, find_node_by_pid (build_process_hierarchy specExample 1) ({ id := 2, parent_id := 1, defunct := true, parent := some 1, children := [4] } : PNode).parent_id = some m ∧
      m.id = ({ id := 2, parent_id := 1, defunct := true, parent := some 1, children := [4] } : PNode).parent_id ∧
      m.children.count ({ id := 2, parent_id := 1, defunct := true, parent := some 1, children := [4] } : PNode).id = 1 :=
  c4_bidirectional_consistency specExample 1
    { id := 2, parent_id := 1, defunct := true, parent := some 1, children := [4] }
    (by decide) (by decide)

/-! ## Claim C6 -/

theorem childNodes_mem {col : Collection} {n c : PNode} (hc : c ∈ childNodes col n) :
    c ∈ col.nodes := by
  rw [childNodes] at hc
  rcases List.mem_filterMap.1 hc with ⟨cid, _, hfind⟩
  exact (findInList_eq_some hfind).1

theorem collect_defunct_mem {col : Collection} :
    ∀ fuel n, ∀ z ∈ collect_defunct_descendants col fuel n,
      ∃ m, m ∈ col.nodes ∧ m.id = z := by
  intro fuel
  induction fuel with
  | zero =>
    intro n z hz
    simp [collect_defunct_descendants] at hz
  | succ fuel ih =>
    intro n z hz
    rw [collect_defunct_descendants] at hz
    rcases List.mem_flatMap.1 hz with ⟨c, hc, hzc⟩
    have hcm : c ∈ col.nodes := childNodes_mem hc
    rcases List.mem_append.1 hzc with hz1 | hz2
    · by_cases hd : c.defunct = true
      · rw [if_pos hd] at hz1
        have hzeq : z = c.id := List.mem_singleton.1 hz1
        exact ⟨c, hcm, hzeq.symm⟩
      · rw [if_neg hd] at hz1
        simp at hz1
    · exact ih c z hz2

theorem get_defunct_descendants_mem {col : Collection} {pid : Int} :
    ∀ z ∈ (get_defunct_descendants col pid).result_ids,
      ∃ m, m ∈ col.nodes ∧ m.id = z := by
  intro z hz
  rw [get_defunct_descendants] at hz
  cases hf : find_node_by_pid col pid with
  | none =>
    rw [hf] at hz
    simp [init_result] at hz
  | some node =>
    rw [hf] at hz
    exact collect_defunct_mem _ node z hz

theorem kzp_fold (col : Collection) :
    ∀ (zs : List Int) (acc : CommandResult × List (Int × Sig)),
      zs.foldl (fun acc zid =>
        match find_node_by_pid col zid with
        | some z =>
          if z.parent_id > 1 then
            ({ acc.1 with result_ids := acc.1.result_ids ++ [z.parent_id] },
             acc.2 ++ [(z.parent_id, Sig.kill)])
          else acc
        | none => acc) acc =
      ({ acc.1 with result_ids := acc.1.result_ids ++
          (((zs.filterMap (fun zid => find_node_by_pid col zid)).filter
            (fun z => decide (z.parent_id > 1))).map (fun z => z.parent_id)) },
       acc.2 ++ (((zs.filterMap (fun zid => find_node_by_pid col zid)).filter
            (fun z => decide (z.parent_id > 1))).map (fun z => (z.parent_id, Sig.kill)))) := by
  intro zs
  induction zs with
  | nil =>
    intro acc
    simp
  | cons zid rest ih =>
    intro acc
    rw [List.foldl_cons, List.filterMap_cons]
    cases hf : find_node_by_pid col zid with
    | none =>
      dsimp only
      rw [ih]
    | some m =>
      dsimp only
      by_cases hgt : m.parent_id > 1
      · rw [if_pos hgt, ih]
        simp [List.filter_cons, hgt, List.append_assoc]
      · rw [if_neg hgt, ih]
        simp [List.filter_cons, hgt]

/-- C6: for every built tree, every zombie id reported by
`get_defunct_descendants` resolves in the collection (the lookup inside
`kill_zombie_parents` never fails), and the recorded ids and the kill log
are exactly the zombies' `parent_id`s filtered by `parent_id > 1`, in
order, with duplicates preserved (a plain filter/map of the zombie list,
no de-duplication): a parent id is signaled and recorded for a zombie if
and only if it exceeds 1. -/
theorem c6_kill_zombie_parents (snap : List ProcRecord) (root_pid pid : Int) :
    (∀ z ∈ (get_defunct_descendants (build_process_hierarchy snap root_pid) pid).result_ids,
      (find_node_by_pid (build_process_hierarchy snap root_pid) z).isSome = true) ∧
    (kill_zombie_parents (build_process_hierarchy snap root_pid) pid).1.result_ids =
      ((((get_defunct_descendants (build_process_hierarchy snap root_pid) pid).result_ids.filterMap
          (fun z => find_node_by_pid (build_process_hierarchy snap root_pid) z)).filter
          (fun z => decide (z.parent_id > 1))).map (fun z => z.parent_id)) ∧
    (kill_zombie_parents (build_process_hierarchy snap root_pid) pid).2 =
      ((((get_defunct_descendants (build_process_hierarchy snap root_pid) pid).result_ids.filterMap
          (fun z => find_node_by_pid (build_process_hierarchy snap root_pid) z)).filter
          (fun z => decide (z.parent_id > 1))).map (fun z => (z.parent_id, Sig.kill))) := by
  refine ⟨?_, ?_, ?_⟩
  · intro z hz
    rcases get_defunct_descendants_mem z hz with ⟨m, hm, hmid⟩
    exact findInList_isSome.2 ⟨m, hm, hmid⟩
  · rw [kill_zombie_parents]
    rw [kzp_fold]
    simp [init_result]
  · rw [kill_zombie_parents]
    rw [kzp_fold]
    simp [init_result]

/-- Witness for C6 at a concrete input: zombie 2 reported under target 1
of the example tree resolves in the collection. -/
theorem c6_witness :
    (find_node_by_pid (build_process_hierarchy specExample 1) 2).isSome = true :=
  (c6_kill_zombie_parents specExample 1 1).1 2 (by decide)

/-! ## Claim C7 -/

theorem ancestorHit_iff {col : Collection} {root_pid : Int} (hinv : TreeInv col root_pid)
    {pid : Int} :
    ∀ f n, n ∈ col.nodes →
      (ancestorHit col f n.parent pid = true ↔
        ∃ k m, 1 ≤ k ∧ k ≤ f ∧ nthAnc col k n = some m ∧ m.id = pid) := by
  intro f
  induction f with
  | zero =>
    intro n hn
    constructor
    · intro h
      cases hp : n.parent with
      | none => rw [hp] at h; simp [ancestorHit] at h
      | some p => rw [hp] at h; simp [ancestorHit] at h
    · rintro ⟨k, m, hk1, hk0, _, _⟩
      omega
  | succ f ih =>
    intro n hn
    cases hp : n.parent with
    | none =>
      constructor
      · intro h
        simp [ancestorHit] at h
      · rintro ⟨k, m, hk1, hkf, hanc, hid⟩
        exfalso
        rcases Nat.exists_eq_add_of_le hk1 with ⟨k0, hkeq⟩
        rw [hkeq, show 1 + k0 = k0 + 1 from by omega, nthAnc_succ] at hanc
        rw [parentStep, hp] at hanc
        cases hanc
    | some p =>
      have hpmem : p ∈ colIds col := parent_mem_colIds hinv n hn p hp
      rcases mem_colIds_iff.1 hpmem with ⟨m1, hm1, hm1id⟩
      have hfind : find_node_by_pid col p = some m1 := by
        rw [← hm1id]
        exact find_of_mem_nodup hinv.nodup hm1
      have hps : parentStep col n = some m1 := by
        rw [parentStep, hp]
        exact hfind
      by_cases hid1 : m1.id = pid
      · rw [show ancestorHit col (f + 1) (some p) pid =
          (match find_node_by_pid col p with
           | none => false
           | some pn => if pn.id = pid then true else ancestorHit col f pn.parent pid)
          from rfl]
        rw [hfind]
        rw [show (match (some m1 : Option PNode) with
           | none => false
           | some pn => if pn.id = pid then true else ancestorHit col f pn.parent pid) =
          (if m1.id = pid then true else ancestorHit col f m1.parent pid) from rfl]
        rw [if_pos hid1]
        simp only [true_iff]
        refine ⟨1, m1, Nat.le_refl 1, by omega, ?_, hid1⟩
        rw [nthAnc_succ, hps]
        rfl
      · rw [show ancestorHit col (f + 1) (some p) pid =
          (match find_node_by_pid col p with
           | none => false
           | some pn => if pn.id = pid then true else ancestorHit col f pn.parent pid)
          from rfl]
        rw [hfind]
        rw [show (match (some m1 : Option PNode) with
           | none => false
           | some pn => if pn.id = pid then true else ancestorHit col f pn.parent pid) =
          (if m1.id = pid then true else ancestorHit col f m1.parent pid) from rfl]
        rw [if_neg hid1]
        rw [ih m1 hm1]
        constructor
        · rintro ⟨k, m, hk1, hkf, hanc, hid⟩
          refine ⟨k + 1, m, by omega, by omega, ?_, hid⟩
          rw [nthAnc_succ, hps]
          exact hanc
        · rintro ⟨k, m, hk1, hkf, hanc, hid⟩
          rcases Nat.exists_eq_add_of_le hk1 with ⟨k0, hkeq⟩
          rw [hkeq, show 1 + k0 = k0 + 1 from by omega, nthAnc_succ, hps] at hanc
          have hanc0 : nthAnc col k0 m1 = some m := hanc
          rcases Nat.eq_zero_or_pos k0 with rfl | hk0pos
          · exfalso
            have hsome : (some m1 : Option PNode) = some m := hanc0
            have hm1m : m1 = m := Option.some.inj hsome
            rw [← hm1m] at hid
            exact hid1 hid
          · exact ⟨k0, m, hk0pos, by omega, hanc0, hid⟩

theorem reachesUp_bound {col : Collection} {root_pid : Int} (hinv : TreeInv col root_pid)
    {n : PNode} (hn : n ∈ col.nodes) {pid : Int} :
    ReachesUp col n pid ↔
      ∃ k m, 1 ≤ k ∧ k ≤ col.nodes.length ∧ nthAnc col k n = some m ∧ m.id = pid := by
  constructor
  · rintro ⟨k, m, hk1, hanc, hid⟩
    rcases List.mem_iff_getElem.1 hn with ⟨j, hj, hjeq⟩
    rcases nthAnc_idx hinv k j hj m (by rw [hjeq]; exact hanc) with ⟨i, hi, _, hik⟩
    exact ⟨k, m, hk1, by omega, hanc, hid⟩
  · rintro ⟨k, m, hk1, _, hanc, hid⟩
    exact ⟨k, m, hk1, hanc, hid⟩

theorem fold_collect (sig : Sig) (P : PNode → Bool) :
    ∀ (l : List PNode) (acc : CommandResult × List (Int × Sig)),
      l.foldl (fun acc current =>
        if P current then
          ({ acc.1 with result_ids := acc.1.result_ids ++ [current.id] },
           acc.2 ++ [(current.id, sig)])
        else acc) acc =
      ({ acc.1 with result_ids := acc.1.result_ids ++
          ((l.filter P).map (fun n => n.id)) },
       acc.2 ++ ((l.filter P).map (fun n => (n.id, sig)))) := by
  intro l
  induction l with
  | nil =>
    intro acc
    simp
  | cons x rest ih =>
    intro acc
    rw [List.foldl_cons]
    by_cases hPx : P x = true
    · rw [if_pos hPx, ih]
      simp [List.filter_cons, hPx, List.append_assoc]
    · rw [if_neg hPx, ih]
      simp [List.filter_cons, hPx]

/-- C7: in every built tree, for a target pid present in it and any signal
kind: (a) the bounded upward walk used by `signal_all_descendants` decides
exactly the spec's proper-descendant relation (the parent chain reaches
the target id); (b) the returned sequence is exactly the ids of the nodes
whose walk meets the target, in collection order; and (c) the attempted
deliveries are exactly those same ids — so nodes whose chain is exhausted
without meeting the target are neither signaled nor recorded, and the
returned ids are independent of delivery outcomes (delivery is
fire-and-forget in the model). -/
theorem c7_signal_descendants (snap : List ProcRecord) (root_pid pid : Int) (sig : Sig)
    (hpres : (find_node_by_pid (build_process_hierarchy snap root_pid) pid).isSome = true) :
    (∀ n ∈ (build_process_hierarchy snap root_pid).nodes,
      (ancestorHit (build_process_hierarchy snap root_pid)
          (build_process_hierarchy snap root_pid).nodes.length n.parent pid = true ↔
        ReachesUp (build_process_hierarchy snap root_pid) n pid)) ∧
    (signal_all_descendants (build_process_hierarchy snap root_pid) pid sig).1.result_ids =
      (((build_process_hierarchy snap root_pid).nodes.filter
        (fun n => ancestorHit (build_process_hierarchy snap root_pid)
          (build_process_hierarchy snap root_pid).nodes.length n.parent pid)).map
        (fun n => n.id)) ∧
    (signal_all_descendants (build_process_hierarchy snap root_pid) pid sig).2 =
      (((build_process_hierarchy snap root_pid).nodes.filter
        (fun n => ancestorHit (build_process_hierarchy snap root_pid)
          (build_process_hierarchy snap root_pid).nodes.length n.parent pid)).map
        (fun n => (n.id, sig))) := by
  have hinv := build_inv snap root_pid
  refine ⟨?_, ?_, ?_⟩
  · intro n hn
    exact (ancestorHit_iff hinv _ n hn).trans (reachesUp_bound hinv hn).symm
  · rw [signal_all_descendants]
    rcases Option.isSome_iff_exists.1 hpres with ⟨w, hw⟩
    rw [hw]
    dsimp only
    rw [fold_collect]
    simp [init_result]
  · rw [signal_all_descendants]
    rcases Option.isSome_iff_exists.1 hpres with ⟨w, hw⟩
    rw [hw]
    dsimp only
    rw [fold_collect]
    simp [init_result]

/-- Witness for C7 at a concrete input: the kill variant on the example
tree returns exactly the ids whose walk meets the target. -/
theorem c7_witness :
    (signal_all_descendants (build_process_hierarchy specExample 1) 1 Sig.kill).1.result_ids =
      (((build_process_hierarchy specExample 1).nodes.filter
        (fun n => ancestorHit (build_process_hierarchy specExample 1)
          (build_process_hierarchy specExample 1).nodes.length n.parent 1)).map
        (fun n => n.id)) :=
  (c7_signal_descendants specExample 1 1 Sig.kill (by decide)).2.1

/-! ## Claim C8 -/

/-- C8: for every recognized flag other than `-rp`, if the target pid is
not in the built tree the program prints only the "does not belong"
message — no query output is produced and no signal is delivered; the
`-rp` flag ignores the target pid entirely (its output is the same for
every target) and always aims its kill at the root pid (attempted exactly
when the tree has a root). -/
theorem c8_dispatch_gate (snap : List ProcRecord) (root_pid : Int) :
    (∀ target_pid flag cmd, find_command_handler flag = some cmd → flag ≠ "-rp" →
      find_node_by_pid (build_process_hierarchy snap root_pid) target_pid = none →
      runMain snap root_pid target_pid (some flag) =
        ([OutLine.notBelong target_pid root_pid], [])) ∧
    (∀ tp tp2 : Int, runMain snap root_pid tp (some "-rp") =
      runMain snap root_pid tp2 (some "-rp")) ∧
    (∀ tp : Int, (runMain snap root_pid tp (some "-rp")).2 =
      if (fetch_process_data snap root_pid).isSome = true
      then [(root_pid, Sig.kill)] else []) := by
  refine ⟨?_, ?_, ?_⟩
  · intro target_pid flag cmd hcmd hflag habs
    rw [runMain]
    dsimp only
    rw [if_neg hflag, hcmd]
    dsimp only
    rw [habs]
    rw [if_neg (by decide : ¬((none : Option PNode).isSome = true))]
  · intro tp tp2
    rw [runMain, runMain]
    dsimp only
    rw [if_pos rfl, if_pos rfl]
  · intro tp
    exact runMain_rp_kills snap root_pid tp

/-- Witness for C8 at a concrete input: target 99 is not in the example
tree, so `-id` prints the not-in-tree message and delivers nothing. -/
theorem c8_witness :
    runMain specExample 1 99 (some "-id") = ([OutLine.notBelong 99 1], []) :=
  (c8_dispatch_gate specExample 1).1 99 "-id" Cmd.immediateDescendants
    (by decide) (by decide) (by decide)

/-! ## Claim C5 -/

theorem collect_defunct_eq_filter (col : Collection) :
    ∀ fuel n, collect_defunct_descendants col fuel n =
      ((collectAll col fuel n).filter (fun m => m.defunct)).map (fun m => m.id) := by
  intro fuel
  induction fuel with
  | zero => intro n; rfl
  | succ fuel ih =>
    intro n
    rw [collect_defunct_descendants, collectAll, List.filter_flatMap, List.map_flatMap]
    apply List.flatMap_congr
    intro c _
    rw [List.filter_cons]
    by_cases hd : c.defunct = true
    · rw [if_pos hd, if_pos hd, List.map_cons, ih c]
      rfl
    · rw [if_neg hd, if_neg hd, ih c]
      rfl

theorem collectAll_mem {col : Collection} :
    ∀ fuel n, ∀ x ∈ collectAll col fuel n, x ∈ col.nodes := by
  intro fuel
  induction fuel with
  | zero =>
    intro n x hx
    simp [collectAll] at hx
  | succ fuel ih =>
    intro n x hx
    rw [collectAll] at hx
    rcases List.mem_flatMap.1 hx with ⟨c, hc, hxc⟩
    rcases List.mem_cons.1 hxc with rfl | hxr
    · exact childNodes_mem hc
    · exact ih c x hxr

theorem childNodes_parent {col : Collection} {root_pid : Int} (hinv : TreeInv col root_pid)
    {n c : PNode} (hn : n ∈ col.nodes) (hc : c ∈ childNodes col n) :
    c ∈ col.nodes ∧ c.parent = some n.id := by
  rw [childNodes] at hc
  rcases List.mem_filterMap.1 hc with ⟨cid, hcid, hfind⟩
  rcases findInList_eq_some hfind with ⟨hcm, hcidq⟩
  refine ⟨hcm, ?_⟩
  have hpos : 0 < n.children.count c.id := by
    rw [hcidq]
    exact List.count_pos_iff.2 hcid
  have hcc := hinv.childCount n hn c hcm
  by_cases hp : c.parent = some n.id
  · exact hp
  · rw [if_neg hp] at hcc
    omega

theorem parentStep_of_parent {col : Collection} {root_pid : Int} (hinv : TreeInv col root_pid)
    {n c : PNode} (hn : n ∈ col.nodes) (hp : c.parent = some n.id) :
    parentStep col c = some n := by
  rw [parentStep, hp]
  exact find_of_mem_nodup hinv.nodup hn

theorem parentStep_parent_eq {col : Collection} {c n : PNode}
    (h : parentStep col c = some n) : c.parent = some n.id := by
  rw [parentStep] at h
  cases hp : c.parent with
  | none => rw [hp] at h; cases h
  | some p =>
    rw [hp] at h
    rcases findInList_eq_some h with ⟨_, hid⟩
    rw [hid]

theorem nthAnc_one {col : Collection} {c n : PNode} (h : parentStep col c = some n) :
    nthAnc col 1 c = some n := by
  show (match parentStep col c with
        | none => none
        | some m => nthAnc col 0 m) = some n
  rw [h]
  rfl

theorem childNodes_count {col : Collection} {root_pid : Int} (hinv : TreeInv col root_pid) :
    ∀ cs : List Int, (∀ cid ∈ cs, ∃ mc, mc ∈ col.nodes ∧ mc.id = cid) →
    ∀ m, m ∈ col.nodes →
      (cs.filterMap (fun c => find_node_by_pid col c)).count m = cs.count m.id := by
  intro cs
  induction cs with
  | nil =>
    intro _ m _
    rfl
  | cons cid rest ih =>
    intro hres m hm
    rcases hres cid (List.mem_cons_self cid rest) with ⟨mc, hmc, hmcid⟩
    have hfind : find_node_by_pid col cid = some mc := by
      rw [← hmcid]
      exact find_of_mem_nodup hinv.nodup hmc
    rw [List.filterMap_cons_some hfind, List.count_cons, List.count_cons]
    rw [ih (fun c hc => hres c (List.mem_cons_of_mem _ hc)) m hm]
    congr 1
    by_cases he : mc = m
    · rw [if_pos (beq_iff_eq.2 he), if_pos (beq_iff_eq.2 (by rw [← he, hmcid]))]
    · rw [if_neg, if_neg]
      · intro hb
        have hcid : cid = m.id := beq_iff_eq.1 hb
        exact he (mem_id_inj hinv.nodup mc hmc m hm (by rw [hmcid, hcid]))
      · intro hb
        exact he (beq_iff_eq.1 hb)

theorem sum_map_single {α : Type} [DecidableEq α] {g : α → Nat} :
    ∀ (l : List α) (a0 : α), l.count a0 = 1 → g a0 = 1 →
      (∀ a ∈ l, a ≠ a0 → g a = 0) → (l.map g).sum = 1 := by
  intro l
  induction l with
  | nil =>
    intro a0 h
    simp at h
  | cons x rest ih =>
    intro a0 hcount hg hothers
    rw [List.count_cons] at hcount
    rw [List.map_cons, List.sum_cons]
    by_cases hx : x = a0
    · rw [if_pos (beq_iff_eq.2 hx)] at hcount
      have hrest0 : rest.count a0 = 0 := by omega
      have ha0notin : a0 ∉ rest := List.count_eq_zero.1 hrest0
      have hsum0 : (rest.map g).sum = 0 := by
        apply List.sum_eq_zero
        intro y hy
        rcases List.mem_map.1 hy with ⟨a, ha, rfl⟩
        exact hothers a (List.mem_cons_of_mem _ ha) (fun haa => ha0notin (haa ▸ ha))
      rw [hx, hg, hsum0]
    · rw [if_neg (fun hb => hx (beq_iff_eq.1 hb))] at hcount
      rw [hothers x (List.mem_cons_self x rest) hx]
      rw [ih a0 (by omega) hg (fun a ha => hothers a (List.mem_cons_of_mem _ ha))]

theorem collectAll_count_zero {col : Collection} {root_pid : Int}
    (hinv : TreeInv col root_pid) :
    ∀ fuel n m, n ∈ col.nodes → m ∈ col.nodes →
      (¬ ∃ k, 1 ≤ k ∧ k ≤ fuel ∧ nthAnc col k m = some n) →
      (collectAll col fuel n).count m = 0 := by
  intro fuel
  induction fuel with
  | zero =>
    intro n m _ _ _
    rfl
  | succ fuel ih =>
    intro n m hn hm hno
    rw [collectAll, List.count_flatMap]
    apply List.sum_eq_zero
    intro y hy
    rcases List.mem_map.1 hy with ⟨c, hc, rfl⟩
    rcases childNodes_parent hinv hn hc with ⟨hcm, hcp⟩
    show List.count m (c :: collectAll col fuel c) = 0
    rw [List.count_cons]
    have hcnem : ¬(c = m) := by
      intro he
      apply hno
      refine ⟨1, Nat.le_refl 1, by omega, ?_⟩
      have hmp : m.parent = some n.id := he ▸ hcp
      exact nthAnc_one (parentStep_of_parent hinv hn hmp)
    rw [if_neg (fun hb => hcnem (beq_iff_eq.1 hb))]
    have hno2 : ¬ ∃ k, 1 ≤ k ∧ k ≤ fuel ∧ nthAnc col k m = some c := by
      rintro ⟨k, hk1, hkf, hanc⟩
      apply hno
      refine ⟨1 + k, by omega, by omega, ?_⟩
      rw [nthAnc_comp, hanc]
      exact nthAnc_one (parentStep_of_parent hinv hn hcp)
    rw [ih c m hcm hm hno2]

theorem collectAll_count_one {col : Collection} {root_pid : Int}
    (hinv : TreeInv col root_pid) :
    ∀ fuel n m, n ∈ col.nodes → m ∈ col.nodes →
      (∃ k, 1 ≤ k ∧ k ≤ fuel ∧ nthAnc col k m = some n) →
      (collectAll col fuel n).count m = 1 := by
  intro fuel
  induction fuel with
  | zero =>
    rintro n m _ _ ⟨k, hk1, hk0, _⟩
    omega
  | succ fuel ih =>
    rintro n m hn hm ⟨k, hk1, hkf, hanc⟩
    rcases Nat.exists_eq_add_of_le hk1 with ⟨j, hkeq⟩
    subst hkeq
    rw [nthAnc_comp] at hanc
    rcases Option.bind_eq_some.1 hanc with ⟨c0, hc0anc, hc0one⟩
    have hstep : parentStep col c0 = some n := by
      cases hps : parentStep col c0 with
      | none =>
        exfalso
        have hred : (match parentStep col c0 with
            | none => (none : Option PNode)
            | some x => nthAnc col 0 x) = some n := hc0one
        rw [hps] at hred
        cases hred
      | some x =>
        have hred : (match parentStep col c0 with
            | none => (none : Option PNode)
            | some x => nthAnc col 0 x) = some n := hc0one
        rw [hps] at hred
        have hxn : x = n := Option.some.inj hred
        rw [hxn]
    have hc0mem : c0 ∈ col.nodes := nthAnc_mem hinv hm hc0anc
    have hc0p : c0.parent = some n.id := parentStep_parent_eq hstep
    have hc0count : (childNodes col n).count c0 = 1 := by
      rw [childNodes, childNodes_count hinv n.children (hinv.childMem n hn) c0 hc0mem]
      have hcc := hinv.childCount n hn c0 hc0mem
      rw [if_pos hc0p] at hcc
      exact hcc
    rw [collectAll, List.count_flatMap]
    apply sum_map_single (childNodes col n) c0 hc0count
    · rcases Nat.eq_zero_or_pos j with rfl | hjpos
      · have hc0m : m = c0 := Option.some.inj hc0anc
        show List.count m (c0 :: collectAll col fuel c0) = 1
        rw [List.count_cons, if_pos (beq_iff_eq.2 hc0m.symm)]
        have hz : (collectAll col fuel c0).count m = 0 := by
          apply collectAll_count_zero hinv fuel c0 m hc0mem hm
          rintro ⟨k2, hk21, hk2f, hanc2⟩
          rw [← hc0m] at hanc2
          have := nthAnc_self_eq_zero hinv hm hanc2
          omega
        rw [hz]
      · show List.count m (c0 :: collectAll col fuel c0) = 1
        rw [List.count_cons]
        have hc0nem : ¬(c0 = m) := by
          intro he
          have hself : nthAnc col j m = some m := by rw [hc0anc, he]
          have := nthAnc_self_eq_zero hinv hm hself
          omega
        rw [if_neg (fun hb => hc0nem (beq_iff_eq.1 hb))]
        rw [ih c0 m hc0mem hm ⟨j, hjpos, by omega, hc0anc⟩]
    · intro c hc hne
      rcases childNodes_parent hinv hn hc with ⟨hcm, hcp⟩
      show List.count m (c :: collectAll col fuel c) = 0
      rw [List.count_cons]
      have hfullj : nthAnc col (1 + j) m = some n := by
        rw [nthAnc_comp, hc0anc]
        exact nthAnc_one hstep
      have hcnem : ¬(c = m) := by
        intro he
        have hmp : m.parent = some n.id := he ▸ hcp
        have h1 : nthAnc col 1 m = some n :=
          nthAnc_one (parentStep_of_parent hinv hn hmp)
        have heq := nthAnc_inj hinv hm h1 hfullj
        have hj0 : j = 0 := by omega
        subst hj0
        have hmc0 : m = c0 := Option.some.inj hc0anc
        exact hne (by rw [he, hmc0])
      rw [if_neg (fun hb => hcnem (beq_iff_eq.1 hb))]
      have hz : (collectAll col fuel c).count m = 0 := by
        apply collectAll_count_zero hinv fuel c m hcm hm
        rintro ⟨k2, hk21, hk2f, hanc2⟩
        have hfull2 : nthAnc col (1 + k2) m = some n := by
          rw [nthAnc_comp, hanc2]
          exact nthAnc_one (parentStep_of_parent hinv hn hcp)
        have heq := nthAnc_inj hinv hm hfull2 hfullj
        have hk2j : k2 = j := by omega
        subst hk2j
        rw [hanc2] at hc0anc
        exact hne (Option.some.inj hc0anc)
      rw [hz]

theorem findInList_head {l : List PNode} {pid : Int} (h : l ≠ [])
    (hid : (l.head h).id = pid) : findInList l pid = some (l.head h) := by
  cases l with
  | nil => cases h rfl
  | cons a rest =>
    rw [findInList, if_pos (show a.id = pid from hid)]
    rfl

theorem filter_length_head {α : Type} (p : α → Bool) (l : List α) (h : l ≠ []) :
    (l.filter p).length =
      (l.tail.filter p).length + (if p (l.head h) = true then 1 else 0) := by
  cases l with
  | nil => cases h rfl
  | cons a rest =>
    rw [List.filter_cons]
    by_cases hp : p a = true
    · rw [if_pos hp, List.length_cons, show (a :: rest).head h = a from rfl, if_pos hp]
      rfl
    · rw [if_neg hp, show (a :: rest).head h = a from rfl, if_neg hp]
      rfl

theorem collectAll_perm_tail {col : Collection} {root_pid : Int}
    (hinv : TreeInv col root_pid) {rn : PNode} {tail : List PNode}
    (hnodes : col.nodes = rn :: tail) (hrid : rn.id = root_pid) :
    (collectAll col col.nodes.length rn).Perm tail := by
  rw [List.perm_iff_count]
  intro x
  have hrn_mem : rn ∈ col.nodes := by
    rw [hnodes]
    exact List.mem_cons_self rn tail
  by_cases hx : x ∈ col.nodes
  · by_cases hxrn : x = rn
    · subst hxrn
      have hz : (collectAll col col.nodes.length x).count x = 0 := by
        apply collectAll_count_zero hinv _ x x hx hx
        rintro ⟨k, hk1, _, hanc⟩
        have := nthAnc_self_eq_zero hinv hx hanc
        omega
      rw [hz]
      have hnd : col.nodes.Nodup := List.Nodup.of_map _ hinv.nodup
      rw [hnodes] at hnd
      rcases List.nodup_cons.1 hnd with ⟨hnotin, _⟩
      exact (List.count_eq_zero.2 hnotin).symm
    · rcases List.mem_iff_getElem.1 hx with ⟨j, hj, hjeq⟩
      rcases chain_reaches_parentless hinv j hj with ⟨k, hkj, m, hch, hmp⟩
      rw [hjeq] at hch
      have hmmem : m ∈ col.nodes := nthAnc_mem hinv hx hch
      have hmid : m.id = root_pid := hinv.allLinked m hmmem hmp
      have hmrn : m = rn := mem_id_inj hinv.nodup m hmmem rn hrn_mem (by rw [hmid, hrid])
      have hk1 : 1 ≤ k := by
        rcases Nat.eq_zero_or_pos k with rfl | h
        · exfalso
          have hxm : x = m := Option.some.inj hch
          exact hxrn (by rw [hxm, hmrn])
        · exact h
      have hone : (collectAll col col.nodes.length rn).count x = 1 := by
        apply collectAll_count_one hinv _ rn x hrn_mem hx
        exact ⟨k, hk1, by omega, by rw [← hmrn]; exact hch⟩
      rw [hone]
      have hnd : col.nodes.Nodup := List.Nodup.of_map _ hinv.nodup
      have hcount1 : col.nodes.count x = 1 := List.count_eq_one_of_mem hnd hx
      rw [hnodes, List.count_cons] at hcount1
      rw [if_neg (fun hb => hxrn (beq_iff_eq.1 hb).symm)] at hcount1
      omega
  · have hl : (collectAll col col.nodes.length rn).count x = 0 := by
      rw [List.count_eq_zero]
      intro hmem
      exact hx (collectAll_mem _ rn x hmem)
    have hr : tail.count x = 0 := by
      rw [List.count_eq_zero]
      intro hmem
      exact hx (by rw [hnodes]; exact List.mem_cons_of_mem _ hmem)
    rw [hl, hr]

/-- C5: for every built tree with a root, `count_zombies` — the number of
nodes in the whole collection whose defunct flag is set — equals the
length of `get_defunct_descendants(root)` plus one exactly when the root
node itself is defunct, and plus zero otherwise. -/
theorem c5_count_defunct (snap : List ProcRecord) (root_pid : Int)
    (hroot : (build_process_hierarchy snap root_pid).root = some root_pid) :
    ∃ rn, find_node_by_pid (build_process_hierarchy snap root_pid) root_pid = some rn ∧
      count_zombies (build_process_hierarchy snap root_pid) =
        (get_defunct_descendants (build_process_hierarchy snap root_pid)
          root_pid).result_ids.length + (if rn.defunct then 1 else 0) := by
  have hinv := build_inv snap root_pid
  rcases hinv.rootFirst hroot with ⟨h0, hid0, hpar0⟩
  have hne : (build_process_hierarchy snap root_pid).nodes ≠ [] := by
    intro hnil
    rw [hnil] at h0
    simp at h0
  have hsplit : (build_process_hierarchy snap root_pid).nodes.head hne ::
      (build_process_hierarchy snap root_pid).nodes.tail =
      (build_process_hierarchy snap root_pid).nodes :=
    List.head_cons_tail _ hne
  have hrid : ((build_process_hierarchy snap root_pid).nodes.head hne).id = root_pid := by
    rw [List.get_eq_getElem, List.getElem_zero h0] at hid0
    exact hid0
  have hfind : find_node_by_pid (build_process_hierarchy snap root_pid) root_pid =
      some ((build_process_hierarchy snap root_pid).nodes.head hne) :=
    findInList_head hne hrid
  refine ⟨(build_process_hierarchy snap root_pid).nodes.head hne, hfind, ?_⟩
  have hperm := collectAll_perm_tail hinv hsplit.symm hrid
  have hfl : ((collectAll (build_process_hierarchy snap root_pid)
      (build_process_hierarchy snap root_pid).nodes.length
      ((build_process_hierarchy snap root_pid).nodes.head hne)).filter
      (fun m => m.defunct)).length =
      ((build_process_hierarchy snap root_pid).nodes.tail.filter
      (fun m => m.defunct)).length :=
    (hperm.filter (fun m => m.defunct)).length_eq
  rw [get_defunct_descendants, hfind]
  dsimp only
  rw [collect_defunct_eq_filter, List.length_map, hfl]
  rw [count_zombies, filter_length_head (fun n => n.defunct) _ hne]

/-- Witness for C5 at a concrete input: the example tree (root 1, zombies
2 and 4) satisfies the counting identity. -/
theorem c5_witness :
    ∃ rn, find_node_by_pid (build_process_hierarchy specExample 1) 1 = some rn ∧
      count_zombies (build_process_hierarchy specExample 1) =
        (get_defunct_descendants (build_process_hierarchy specExample 1) 1).result_ids.length
          + (if rn.defunct then 1 else 0) :=
  c5_count_defunct specExample 1 (by decide)
